import Mathlib

/-!
# htmlkit: a shallow embedding of `htmlkit.go` and its verified properties

Modelling conventions.

* A Go `string` / `[]byte` is a Lean `String`.  The only byte-level operation of the
  program is the standard escaper, which rewrites five ASCII characters; the bytes of a
  multi-byte UTF-8 sequence are never ASCII, so working per character is the same.
* `map[string]string` is the nil map or a made map, a finite map with unique keys
  (`AList`); `make` is the made empty map, `m[k] = v` is `AList.insert` on a made map and
  a panic on the nil map, and reading or ranging over the nil map is reading the empty
  map.  `map[string]struct{}` is a `Finset String`: the two maps of this type are
  written only by `tag`, right after `make`, and a nil map reads as the empty set.
* `for k, v := range m` visits every entry once in an order the language leaves
  unspecified and that may change from one loop to the next.  Every `range` consumes one
  number from a schedule and `rangeOrder` turns it into the order of the visit.
* `fmt.Printf` appends to standard output; the operations return the text they print.
* A run-time panic is `Except.error`.
* Nodes are values and pointers are non-nil.  The section `Elements in memory` takes the same code over a heap
  of `Tag` cells, where a child is a pointer, for the properties that are about sharing
  and about writes; `Heap.Render_eq_value` relates the two.
-/

namespace Htmlkit

/-! ## Data model -/

/-- The Go type `map[string]string`: the nil map, which is the value of the field of a
`Tag` that was not built by `tag`, or a map made by `make`. -/
inductive AttrMap where
  | nil
  | made (m : AList (fun _ : String => String))

/-- The entries that a `range` over the map visits; the nil map has none. -/
def AttrMap.entries : AttrMap → List (Σ _ : String, String)
  | .nil => []
  | .made m => m.entries

/-- The read `v, ok := m[k]`; on the nil map nothing is found. -/
def AttrMap.lookup (k : String) : AttrMap → Option String
  | .nil => none
  | .made m => m.lookup k

/-- The panic of the write `m[k] = v` on the nil map. -/
def nilMapPanic : String := "assignment to entry in nil map"

/-- The write `m[k] = v`: the map after it, or the panic on the nil map. -/
def AttrMap.set (k v : String) : AttrMap → Except String AttrMap
  | .nil => .error nilMapPanic
  | .made m => .ok (.made (m.insert k v))

/-- The fields of `type Tag struct`, over the type `E` of the children. -/
structure TagOf (E : Type) where
  Name : String
  Attributes : AttrMap
  Children : List E
  AllowedAttrs : Finset String
  AllowedChildTags : Finset String

/-- The Go type `type TextNode struct`. -/
structure TextNode where
  Content : String

/-- The Go type `type RawNode struct`. -/
structure RawNode where
  Content : String

/-- The values of the interface `Element`: the three types of the package that have a
`Render` method (`*Tag`, `*TextNode`, `*RawNode`). -/
inductive Element where
  | tag (t : TagOf Element)
  | text (n : TextNode)
  | raw (n : RawNode)

/-- The Go type `type Tag struct`. -/
abbrev Tag := TagOf Element

/-- The Go type `type Attr struct`. -/
structure Attr where
  Key : String
  Val : String

/-- One value of a variadic `args ...any`, by the case of the type switch of `tag` that it
selects: an `Attr`, an `Element`, or a value of any other type. -/
inductive Arg where
  | attr (v : Attr)
  | node (v : Element)
  | other

/-! ## The standard library routine `html.EscapeString` -/

/-- Modelled from the spec: the replacement table of the standard library's
`html.EscapeString`, which is not part of the repository.  It holds the three characters
the spec names and the two quote characters (`Char.ofNat 39` is the single quote,
`Char.ofNat 34` the double quote), in the order of the library's replacer. -/
def htmlEscaper : List (Char × String) :=
  [('&', "&amp;"), (Char.ofNat 39, "&#39;"), ('<', "&lt;"), ('>', "&gt;"),
   (Char.ofNat 34, "&#34;")]

/-- Modelled from the spec: `html.EscapeString`, a single left-to-right pass that writes
the replacement of a character that has one in `htmlEscaper` and the character itself
otherwise. -/
def escapeString (s : String) : String :=
  s.data.foldl
    (fun buf c =>
      match htmlEscaper.lookup c with
      | some r => buf ++ r
      | none => buf.push c)
    ""

/-! ## Map iteration -/

/-- The visit that takes, `fuel` times, the entry at position `seed % length` out of the
entries not yet visited and goes on with `seed / length`. -/
def pickOrder {α : Type} : Nat → List α → Nat → List α
  | 0, _, _ => []
  | fuel + 1, l, seed =>
    match l[seed % l.length]? with
    | some y => y :: pickOrder fuel (l.eraseIdx (seed % l.length)) (seed / l.length)
    | none => []

/-- The order in which one `range` over `m` visits the entries when the runtime's choice
is `seed`. -/
def rangeOrder (m : AttrMap) (seed : Nat) : List (Σ _ : String, String) :=
  pickOrder m.entries.length m.entries seed

/-! ## Rendering -/

/-- The text of `fmt.Sprintf` with the format ` %s="%s"` for one map entry. -/
def attrSegment (kv : Σ _ : String, String) : String :=
  " " ++ kv.1 ++ "=\"" ++ escapeString kv.2 ++ "\""

/-- The method `func (n *TextNode) Render() []byte`. -/
def TextNode.Render (n : TextNode) : String := escapeString n.Content

/-- The method `func (n *RawNode) Render() []byte`. -/
def RawNode.Render (n : RawNode) : String := n.Content

mutual
/-- The method `Render` of the interface `Element`, by dynamic type.  It takes the
schedule of the map iterations still to come and returns the bytes and the rest of the
schedule. -/
def Element.Render : Element → List Nat → String × List Nat
  | .tag t, sched => Tag.Render t sched
  | .text n, sched => (n.Render, sched)
  | .raw n, sched => (n.Render, sched)
/-- The method `func (t *Tag) Render() []byte`. -/
def Tag.Render : Tag → List Nat → String × List Nat
  | ⟨name, attrs, children, _, _⟩, sched =>
    let b := "<" ++ name
    let b := (rangeOrder attrs (sched.headD 0)).foldl (fun b kv => b ++ attrSegment kv) b
    let b := b ++ ">"
    let r := renderChildren children sched.tail b
    (r.1 ++ ("</" ++ name ++ ">"), r.2)
/-- The loop `for _, child := range t.Children { b.Write(child.Render()) }` on the
buffer `b`. -/
def renderChildren : List Element → List Nat → String → String × List Nat
  | [], sched, b => (b, sched)
  | child :: rest, sched, b =>
    let r := child.Render sched
    renderChildren rest r.2 (b ++ r.1)
end

/-- The function `func Text(s string) Element`. -/
def Text (s : String) : Element := .text { Content := s }

/-- The function `func Raw(s string) Element`. -/
def Raw (s : String) : Element := .raw { Content := s }

/-- The function `func Class(name string) Attr`. -/
def Class (name : String) : Attr := { Key := "class", Val := name }

/-- The function `func Id(id string) Attr`. -/
def Id (id : String) : Attr := { Key := "id", Val := id }

/-! ## Mutation -/

/-- The panic of the type assertion `child.(*Tag)` on a value of another dynamic type. -/
def assertionPanic : String := "interface conversion: htmlkit.Element is not *htmlkit.Tag"

/-- The method `func (t *Tag) AddChild(child Element)`: the tag after the call and the
text printed.  The assertion `child.(*Tag)` is evaluated first and panics unless the
child is a `*Tag`. -/
def Tag.AddChild (t : Tag) (child : Element) : Except String (Tag × String) :=
  match child with
  | .tag c =>
    if c.Name ∉ t.AllowedChildTags then
      .ok (t, "Warning: Child tag '" ++ c.Name ++ "' is not allowed for tag '" ++ t.Name
        ++ "'\nStop rendering.\n")
    else
      .ok ({ t with Children := t.Children ++ [child] }, "")
  | _ => .error assertionPanic

/-- The method `func (t *Tag) AddAttribute(attr Attr)`: the tag after the call and the
text printed, or the panic of the write to `t.Attributes` when it is the nil map. -/
def Tag.AddAttribute (t : Tag) (attr : Attr) : Except String (Tag × String) :=
  let out :=
    if attr.Key ∉ t.AllowedAttrs then
      "Warning: Attribute '" ++ attr.Key ++ "' is not allowed for tag '" ++ t.Name
        ++ "'\nStop rendering.\n"
    else ""
  match t.Attributes.set attr.Key attr.Val with
  | .ok m => .ok ({ t with Attributes := m }, out)
  | .error e => .error e

/-! ## Constructors -/

/-- One turn of the loop `for _, arg := range args` of `tag`, on the tag built so far and
the text printed so far. -/
def tagStep (acc : Tag × String) : Arg → Except String (Tag × String)
  | .attr v =>
    match acc.1.AddAttribute v with
    | .ok r => .ok (r.1, acc.2 ++ r.2)
    | .error e => .error e
  | .node (.tag c) =>
    match acc.1.AddChild (.tag c) with
    | .ok r => .ok (r.1, acc.2 ++ r.2)
    | .error e => .error e
  | .node v => .ok ({ acc.1 with Children := acc.1.Children ++ [v] }, acc.2)
  | .other => .ok acc

/-- The function `func tag(name string, allowedAttrs, allowedChildTags []string,
args ...any) *Tag`: the tag built and the text printed. -/
def tag (name : String) (allowedAttrs allowedChildTags : List String) (args : List Arg) :
    Except String (Tag × String) :=
  let t : Tag :=
    { Name := name
      Attributes := .made ∅
      Children := []
      AllowedAttrs := allowedAttrs.foldl (fun s a => insert a s) ∅
      AllowedChildTags := allowedChildTags.foldl (fun s c => insert c s) ∅ }
  args.foldlM tagStep (t, "")

/-- The function `func Table(args ...any) *Tag`. -/
def Table (args : List Arg) : Except String (Tag × String) :=
  tag "table" ["class", "id"] ["tr"] args

/-- The function `func Tr(args ...any) *Tag`. -/
def Tr (args : List Arg) : Except String (Tag × String) :=
  tag "tr" ["class", "id"] ["td"] args

/-- The function `func Td(args ...any) *Tag`. -/
def Td (args : List Arg) : Except String (Tag × String) :=
  tag "td" ["class", "id"] [] args

/-! ## Trees whose elements hold at most one attribute -/

mutual
/-- Whether no element of the tree under a node holds two or more attributes. -/
def Element.atMostOneAttr : Element → Bool
  | .tag t => Tag.atMostOneAttr t
  | .text _ => true
  | .raw _ => true
/-- Whether neither the element nor one below it holds two or more attributes. -/
def Tag.atMostOneAttr : Tag → Bool
  | ⟨_, attrs, children, _, _⟩ => decide (attrs.entries.length ≤ 1) && allAtMostOneAttr children
/-- Whether no element of the trees under the nodes of a list holds two or more
attributes. -/
def allAtMostOneAttr : List Element → Bool
  | [] => true
  | child :: rest => child.atMostOneAttr && allAtMostOneAttr rest
end

/-! ## The dispatch of the constructor arguments, in the words of the specification -/

/-- The child that one argument contributes: a text or raw node always, an element when
its name is among the allowed child names, and nothing for any other argument. -/
def Arg.keptChild (allowedChildTags : List String) : Arg → Option Element
  | .node (.tag c) => if c.Name ∈ allowedChildTags then some (.tag c) else none
  | .node v => some v
  | _ => none

/-- The attribute that one argument contributes: itself when it is an `Attr`. -/
def Arg.attrOf : Arg → Option Attr
  | .attr v => some v
  | _ => none

/-! ## The child allow-list invariant -/

/-- Whether every child of `t` that is an element has its name in `t.AllowedChildTags`. -/
def Tag.childrenAllowed (t : Tag) : Bool :=
  t.Children.all fun child =>
    match child with
    | .tag c => decide (c.Name ∈ t.AllowedChildTags)
    | _ => true

/-! ## The escaper, in the words of the specification -/

/-- The text written for one character: the entity of one of the five characters, and
the character itself for any other. -/
def escapeChar (c : Char) : String :=
  if c = '&' then "&amp;" else if c = '<' then "&lt;" else if c = '>' then "&gt;"
  else if c = Char.ofNat 34 then "&#34;" else if c = Char.ofNat 39 then "&#39;"
  else String.singleton c

/-! ## Elements in memory

The definitions above take a node as a value.  The program holds a `*Tag` as a pointer,
and `AddChild` stores the pointer it is given, so that two elements can share a child and
a chain of children could in principle come back to its start.  This section is the same
code over a heap of `Tag` cells. -/

/-- A value of the interface `Element` as the program holds it: a pointer to a `Tag`,
which is the address of a cell, or a text or raw node, which no operation changes and
which is kept by value. -/
inductive Ref where
  | tag (addr : Nat)
  | text (n : TextNode)
  | raw (n : RawNode)

/-- A `Tag` in memory: the fields of `type Tag struct`, the children being interface
values. -/
abbrev Cell := TagOf Ref

/-- The `Tag` values allocated so far; the address of a cell is its position. -/
abbrev Heap := List Cell

/-- One value of a variadic `args ...any` in memory, by the case of the type switch of
`tag` that it selects. -/
inductive PArg where
  | attr (v : Attr)
  | node (v : Ref)
  | other

/-- The panic of a field access through a pointer that points to no `Tag`. -/
def nilPanic : String := "invalid memory address or nil pointer dereference"

/-- The method `func (t *Tag) AddChild(child Element)` on the tag at address `p`: the
heap after the call and the text printed. -/
def Heap.AddChild (h : Heap) (p : Nat) (child : Ref) : Except String (Heap × String) :=
  match child with
  | .tag q =>
    match h[q]?, h[p]? with
    | some c, some t =>
      if c.Name ∉ t.AllowedChildTags then
        .ok (h, "Warning: Child tag '" ++ c.Name ++ "' is not allowed for tag '" ++ t.Name
          ++ "'\nStop rendering.\n")
      else
        .ok (h.set p { t with Children := t.Children ++ [child] }, "")
    | _, _ => .error nilPanic
  | _ => .error assertionPanic

/-- The method `func (t *Tag) AddAttribute(attr Attr)` on the tag at address `p`: the
heap after the call and the text printed. -/
def Heap.AddAttribute (h : Heap) (p : Nat) (attr : Attr) : Except String (Heap × String) :=
  match h[p]? with
  | some t =>
    let out :=
      if attr.Key ∉ t.AllowedAttrs then
        "Warning: Attribute '" ++ attr.Key ++ "' is not allowed for tag '" ++ t.Name
          ++ "'\nStop rendering.\n"
      else ""
    match t.Attributes.set attr.Key attr.Val with
    | .ok m => .ok (h.set p { t with Attributes := m }, out)
    | .error e => .error e
  | none => .error nilPanic

/-- One turn of the loop `for _, arg := range args` of `tag`, the tag under construction
being at address `p`. -/
def Heap.tagStep (p : Nat) (acc : Heap × String) : PArg → Except String (Heap × String)
  | .attr v =>
    match acc.1.AddAttribute p v with
    | .ok r => .ok (r.1, acc.2 ++ r.2)
    | .error e => .error e
  | .node (.tag q) =>
    match acc.1.AddChild p (.tag q) with
    | .ok r => .ok (r.1, acc.2 ++ r.2)
    | .error e => .error e
  | .node v =>
    match acc.1[p]? with
    | some t => .ok (acc.1.set p { t with Children := t.Children ++ [v] }, acc.2)
    | none => .error nilPanic
  | .other => .ok acc

/-- The function `tag` in memory: it allocates the new `Tag` at the first free address,
runs the loop on it, and returns the heap, the address and the text printed. -/
def Heap.tag (h : Heap) (name : String) (allowedAttrs allowedChildTags : List String)
    (args : List PArg) : Except String (Heap × Nat × String) :=
  let t : Cell :=
    { Name := name
      Attributes := .made ∅
      Children := []
      AllowedAttrs := allowedAttrs.foldl (fun s a => insert a s) ∅
      AllowedChildTags := allowedChildTags.foldl (fun s c => insert c s) ∅ }
  match args.foldlM (Heap.tagStep h.length) (h ++ [t], "") with
  | .ok r => .ok (r.1, h.length, r.2)
  | .error e => .error e

/-- The function `Table` in memory. -/
def Heap.Table (h : Heap) (args : List PArg) : Except String (Heap × Nat × String) :=
  h.tag "table" ["class", "id"] ["tr"] args

/-- The function `Tr` in memory. -/
def Heap.Tr (h : Heap) (args : List PArg) : Except String (Heap × Nat × String) :=
  h.tag "tr" ["class", "id"] ["td"] args

/-- The function `Td` in memory. -/
def Heap.Td (h : Heap) (args : List PArg) : Except String (Heap × Nat × String) :=
  h.tag "td" ["class", "id"] [] args

/-- The loop `for _, child := range t.Children { b.Write(child.Render()) }` in memory,
`render` being the method `Render`; the heap goes from one call to the next. -/
def renderRefs (render : Heap → Ref → List Nat → Option (String × List Nat × Heap)) :
    List Ref → Heap → List Nat → String → Option (String × List Nat × Heap)
  | [], h, sched, b => some (b, sched, h)
  | child :: rest, h, sched, b =>
    match render h child sched with
    | some r => renderRefs render rest r.2.2 r.2.1 (b ++ r.1)
    | none => none

/-- The method `Render` in memory, as a step on the heap: the bytes, the rest of the
schedule and the heap after the call.  The first argument bounds the depth of the calls;
the result is `none` when the bound is reached or a pointer points to no `Tag`. -/
def Heap.Render : Nat → Heap → Ref → List Nat → Option (String × List Nat × Heap)
  | _, h, .text n, sched => some (n.Render, sched, h)
  | _, h, .raw n, sched => some (n.Render, sched, h)
  | 0, _, .tag _, _ => none
  | fuel + 1, h, .tag p, sched =>
    match h[p]? with
    | none => none
    | some t =>
      let b := "<" ++ t.Name
      let b := (rangeOrder t.Attributes (sched.headD 0)).foldl (fun b kv => b ++ attrSegment kv) b
      let b := b ++ ">"
      match renderRefs (Heap.Render fuel) t.Children h sched.tail b with
      | none => none
      | some r =>
        match r.2.2[p]? with
        | none => none
        | some t1 => some (r.1 ++ ("</" ++ t1.Name ++ ">"), r.2.1, r.2.2)

/-- One call of the package made by a program. -/
inductive Op where
  | table (args : List PArg)
  | tr (args : List PArg)
  | td (args : List PArg)
  | addChild (p : Nat) (child : Ref)
  | addAttribute (p : Nat) (attr : Attr)

/-- The heap after one call.  A call that panics leaves the heap as it was before the
call: `AddChild` and `AddAttribute` panic before they write, and a constructor writes
only to the cell it has just allocated, which nothing else points to. -/
def Heap.step (h : Heap) : Op → Heap
  | .table args => match h.Table args with | .ok r => r.1 | .error _ => h
  | .tr args => match h.Tr args with | .ok r => r.1 | .error _ => h
  | .td args => match h.Td args with | .ok r => r.1 | .error _ => h
  | .addChild p child => match h.AddChild p child with | .ok r => r.1 | .error _ => h
  | .addAttribute p attr => match h.AddAttribute p attr with | .ok r => r.1 | .error _ => h

/-- The heap after a program: the calls of `ops` in order, from the empty heap. -/
def Heap.run (ops : List Op) : Heap := ops.foldl Heap.step []

/-- The relation `q` is below `p`: the tag at `q` is a child of the tag at `p`, or a
child of a tag below `p`. -/
inductive Heap.Descendant (h : Heap) : Nat → Nat → Prop where
  | child {p q : Nat} {t : Cell} : h[p]? = some t → Ref.tag q ∈ t.Children → Descendant h p q
  | trans {p q r : Nat} : Descendant h p q → Descendant h q r → Descendant h p r

/-- The allowed child names that the three constructors give to a name. -/
def allowedOf (name : String) : Finset String :=
  if name = "table" then {"tr"} else if name = "tr" then {"td"} else ∅

/-- The depth of the tree that an element of a name can stand above. -/
def rank (name : String) : Nat :=
  if name = "table" then 2 else if name = "tr" then 1 else 0

/-- The invariant of the heaps that programs build: every tag has the allowed child
names that the constructors give to its name, and every child that is a pointer points to
a tag whose name is allowed. -/
def Heap.Ranked (h : Heap) : Prop :=
  ∀ (p : Nat) (t : Cell), h[p]? = some t →
    t.AllowedChildTags = allowedOf t.Name ∧
    ∀ q, Ref.tag q ∈ t.Children → ∃ c, h[q]? = some c ∧ c.Name ∈ t.AllowedChildTags

/-- The values of the children of a tag, `unfold` giving the value of one child. -/
def unfoldRefs (unfold : Ref → Option Element) : List Ref → Option (List Element)
  | [] => some []
  | child :: rest =>
    match unfold child, unfoldRefs unfold rest with
    | some e, some es => some (e :: es)
    | _, _ => none

/-- The node as a value that an interface value stands for in a heap: the tag it points
to, with the values of its children in place of the pointers.  The first argument bounds
the depth; the result is `none` when the bound is reached or a pointer points to no
`Tag`. -/
def Heap.toElement : Nat → Heap → Ref → Option Element
  | _, _, .text n => some (.text n)
  | _, _, .raw n => some (.raw n)
  | 0, _, .tag _ => none
  | fuel + 1, h, .tag p =>
    match h[p]? with
    | none => none
    | some t =>
      match unfoldRefs (Heap.toElement fuel h) t.Children with
      | none => none
      | some es => some (.tag ⟨t.Name, t.Attributes, es, t.AllowedAttrs, t.AllowedChildTags⟩)

deriving instance DecidableEq for Except

/-! ## Lemmas on map iteration -/

/-- Taking one entry out of a list and putting it in front permutes the list. -/
theorem perm_cons_eraseIdx {α : Type} (l : List α) (i : Nat) (y : α) (h : l[i]? = some y) :
    (y :: l.eraseIdx i).Perm l := by
  induction l generalizing i with
  | nil => simp at h
  | cons x xs ih =>
    cases i with
    | zero =>
      simp at h
      subst h
      simp
    | succ j =>
      simp at h
      have := ih j h
      simp only [List.eraseIdx_cons_succ]
      exact (List.Perm.swap x y _).trans (List.Perm.cons x this)

/-- With as much fuel as there are entries, the visit takes every entry exactly once. -/
theorem pickOrder_perm {α : Type} (fuel : Nat) (l : List α) (seed : Nat) (h : l.length = fuel) :
    (pickOrder fuel l seed).Perm l := by
  induction fuel generalizing l seed with
  | zero =>
    have : l = [] := List.length_eq_zero.mp h
    subst this
    simp [pickOrder]
  | succ n ih =>
    have hpos : seed % l.length < l.length := Nat.mod_lt _ (by omega)
    have hget : l[seed % l.length]? = some (l[seed % l.length]) :=
      List.getElem?_eq_getElem hpos
    simp only [pickOrder, hget]
    have hlen : (l.eraseIdx (seed % l.length)).length = n := by
      rw [List.length_eraseIdx]
      simp [hpos]; omega
    exact (List.Perm.cons _ (ih _ _ hlen)).trans (perm_cons_eraseIdx l _ _ hget)

/-- One `range` over a map visits every entry exactly once. -/
theorem rangeOrder_perm (m : AttrMap) (seed : Nat) : (rangeOrder m seed).Perm m.entries :=
  pickOrder_perm _ _ _ rfl

/-- Every order of the entries is the order of the visit for some choice of the runtime. -/
theorem pickOrder_complete {α : Type} (p l : List α) (h : p.Perm l) :
    ∃ seed, pickOrder l.length l seed = p := by
  induction p generalizing l with
  | nil =>
    have : l = [] := List.perm_nil.mp h.symm
    subst this
    exact ⟨0, rfl⟩
  | cons y p ih =>
    have hy : y ∈ l := h.subset (List.mem_cons_self _ _)
    obtain ⟨i, hi, hget⟩ := List.getElem_of_mem hy
    have hget? : l[i]? = some y := by rw [List.getElem?_eq_getElem hi, hget]
    have hrest : p.Perm (l.eraseIdx i) :=
      List.Perm.cons_inv (h.trans (perm_cons_eraseIdx l i y hget?).symm)
    obtain ⟨seed, hseed⟩ := ih _ hrest
    have hlen : l.length = (l.eraseIdx i).length + 1 := by
      rw [List.length_eraseIdx]; simp [hi]; omega
    refine ⟨i + l.length * seed, ?_⟩
    have hmod : (i + l.length * seed) % l.length = i := by
      rw [Nat.add_mul_mod_self_left]; exact Nat.mod_eq_of_lt hi
    have hdiv : (i + l.length * seed) / l.length = seed := by
      rw [Nat.add_mul_div_left _ _ (by omega : 0 < l.length), Nat.div_eq_of_lt hi]; simp
    have hstep : pickOrder ((l.eraseIdx i).length + 1) l (i + l.length * seed) = y :: p := by
      simp only [pickOrder, hmod, hdiv, hget?]
      rw [hseed]
    rw [← hlen] at hstep
    exact hstep

/-- Every order of the entries of a map is the order of some `range` over it. -/
theorem rangeOrder_complete (m : AttrMap) (p : List (Σ _ : String, String))
    (h : p.Perm m.entries) : ∃ seed, rangeOrder m seed = p :=
  pickOrder_complete p m.entries h

/-! ## Lemmas on the output buffer -/

/-- Writing one piece per item to a buffer appends the concatenation of the pieces. -/
theorem foldl_append_eq {α : Type} (f : α → String) (l : List α) (b : String) :
    l.foldl (fun b x => b ++ f x) b = b ++ String.join (l.map f) := by
  induction l generalizing b with
  | nil => apply String.ext; simp
  | cons x xs ih =>
    simp only [List.foldl_cons, ih]
    apply String.ext; simp

/-- The children loop appends to the buffer one rendering of every child, in order. -/
theorem renderChildren_eq (cs : List Element) (sched : List Nat) (b : String) :
    ∃ outs : List String,
      List.Forall₂ (fun child out => ∃ s, (Element.Render child s).1 = out) cs outs ∧
      (renderChildren cs sched b).1 = b ++ String.join outs := by
  induction cs generalizing sched b with
  | nil => exact ⟨[], List.Forall₂.nil, by rw [renderChildren]; apply String.ext; simp⟩
  | cons c cs ih =>
    obtain ⟨outs, hall, heq⟩ := ih (c.Render sched).2 (b ++ (c.Render sched).1)
    refine ⟨(c.Render sched).1 :: outs, List.Forall₂.cons ⟨sched, rfl⟩ hall, ?_⟩
    rw [renderChildren]
    simp only [heq]
    apply String.ext; simp

/-! ## Rendering of an element -/

/-- The bytes of an element, with the order of the attribute segments made explicit. -/
theorem Tag.render_eq (t : Tag) (sched : List Nat) :
    ∃ outs : List String,
      List.Forall₂ (fun child out => ∃ s, (Element.Render child s).1 = out) t.Children outs ∧
      (t.Render sched).1 =
        "<" ++ t.Name
          ++ String.join ((rangeOrder t.Attributes (sched.headD 0)).map attrSegment)
          ++ ">" ++ String.join outs ++ "</" ++ t.Name ++ ">" := by
  obtain ⟨name, attrs, children, aa, ac⟩ := t
  obtain ⟨outs, hall, heq⟩ := renderChildren_eq children sched.tail
    ("<" ++ name ++ String.join ((rangeOrder attrs (sched.headD 0)).map attrSegment) ++ ">")
  refine ⟨outs, hall, ?_⟩
  rw [Tag.Render]
  simp only [foldl_append_eq, heq]
  apply String.ext
  simp

/-- C1: for every element `t` and every schedule of the map iterations, `t.Render()` is
`<` and the name, then one segment ` key="E(value)"` for every entry of `t.Attributes`
(the entries in some order, each once), then `>`, then one rendering of every child in the
order of `t.Children`, then `</`, the name and `>`.  An element without children renders
as the opening tag directly followed by the explicit closing tag. -/
theorem Tag.render_shape (t : Tag) (sched : List Nat) :
    (∃ order : List (Σ _ : String, String), ∃ outs : List String,
      order.Perm t.Attributes.entries ∧
      List.Forall₂ (fun child out => ∃ s, (Element.Render child s).1 = out) t.Children outs ∧
      (t.Render sched).1 =
        "<" ++ t.Name
          ++ String.join (order.map fun kv => " " ++ kv.1 ++ "=\"" ++ escapeString kv.2 ++ "\"")
          ++ ">" ++ String.join outs ++ "</" ++ t.Name ++ ">") ∧
    (∃ order : List (Σ _ : String, String),
      order.Perm t.Attributes.entries ∧
      (Tag.Render { t with Children := [] } sched).1 =
        "<" ++ t.Name
          ++ String.join (order.map fun kv => " " ++ kv.1 ++ "=\"" ++ escapeString kv.2 ++ "\"")
          ++ "></" ++ t.Name ++ ">") := by
  constructor
  · obtain ⟨outs, hall, heq⟩ := Tag.render_eq t sched
    exact ⟨_, outs, rangeOrder_perm _ _, hall, heq⟩
  · obtain ⟨outs, hall, heq⟩ := Tag.render_eq { t with Children := [] } sched
    cases hall
    refine ⟨_, rangeOrder_perm t.Attributes (sched.headD 0), ?_⟩
    rw [heq]
    apply String.ext
    simp [attrSegment]
    rfl

/-! ## Text and raw nodes -/

/-- One step of the escaper writes the replacement of one of the five characters, or the
character itself. -/
theorem escape_step (buf : String) (c : Char) :
    (match htmlEscaper.lookup c with
      | some r => buf ++ r
      | none => buf.push c) =
    buf ++ (if c = '&' then "&amp;" else if c = '<' then "&lt;" else if c = '>' then "&gt;"
        else if c = Char.ofNat 34 then "&#34;" else if c = Char.ofNat 39 then "&#39;"
        else String.singleton c) := by
  by_cases h1 : c = '&'
  · subst h1; rfl
  by_cases h2 : c = '<'
  · subst h2; rfl
  by_cases h3 : c = '>'
  · subst h3; rfl
  by_cases h4 : c = Char.ofNat 34
  · subst h4; rfl
  by_cases h5 : c = Char.ofNat 39
  · subst h5; rfl
  have hnone : htmlEscaper.lookup c = none := by
    have e1 : (c == '&') = false := by simpa using h1
    have e2 : (c == '<') = false := by simpa using h2
    have e3 : (c == '>') = false := by simpa using h3
    have e4 : (c == Char.ofNat 34) = false := by simpa using h4
    have e5 : (c == Char.ofNat 39) = false := by simpa using h5
    simp only [htmlEscaper, List.lookup, e1, e2, e3, e4, e5]
  rw [hnone]
  simp only [h1, h2, h3, h4, h5, if_false]
  apply String.ext
  simp [String.singleton]

/-- The escaper rewrites every character on its own, in place. -/
theorem escapeString_eq (s : String) :
    escapeString s = String.join (s.data.map fun c =>
        if c = '&' then "&amp;" else if c = '<' then "&lt;" else if c = '>' then "&gt;"
        else if c = Char.ofNat 34 then "&#34;" else if c = Char.ofNat 39 then "&#39;"
        else String.singleton c) := by
  unfold escapeString
  simp only [escape_step]
  rw [foldl_append_eq]
  apply String.ext; simp

/-- C2: for every string `s`, `Text(s).Render()` is what the standard escaper returns on
`s`, which is `s` with every `&` replaced by `&amp;`, every `<` by `&lt;`, every `>` by
`&gt;`, every double quote by `&#34;` and every single quote by `&#39;`, every other
character being left unchanged and in its place. -/
theorem Text.render_escapes (s : String) (sched : List Nat) :
    ((Text s).Render sched).1 = escapeString s ∧
    ((Text s).Render sched).1 = String.join (s.data.map fun c =>
        if c = '&' then "&amp;" else if c = '<' then "&lt;" else if c = '>' then "&gt;"
        else if c = Char.ofNat 34 then "&#34;" else if c = Char.ofNat 39 then "&#39;"
        else String.singleton c) := by
  constructor
  · simp [Text, Element.Render, TextNode.Render]
  · simp only [Text, Element.Render, TextNode.Render]
    exact escapeString_eq s

/-- C3: for every string `s`, `Raw(s).Render()` is `s` itself, nothing being escaped,
added or removed (and the schedule of the map iterations is left untouched). -/
theorem Raw.render_verbatim (s : String) (sched : List Nat) :
    (Raw s).Render sched = (s, sched) := by
  simp [Raw, Element.Render, RawNode.Render]

/-! ## Constructors and rendering -/

/-- A table of one row of one cell of one text renders as the three nested tags around
the escaped text. -/
theorem render_table_tr_td_text (s : String) (sched : List Nat) :
    (do
      let td ← Td [.node (Text s)]
      let tr ← Tr [.node (.tag td.1)]
      let table ← Table [.node (.tag tr.1)]
      pure (table.1.Render sched).1)
      = Except.ok ("<table><tr><td>" ++ escapeString s ++ "</td></tr></table>") := by
  simp [Td, Tr, Table, tag, List.foldlM, tagStep, Text, Tag.AddChild, bind, Except.bind, pure,
    Except.pure]
  simp [Tag.Render, renderChildren, Element.Render, rangeOrder, pickOrder, TextNode.Render]
  apply String.ext
  simp

/-- C4: for every string `s` and every schedule, `Table(Tr(Td(Text(s)))).Render()` is
`<table><tr><td>`, the escaped `s`, `</td></tr></table>`; for `s = "X"` it is exactly
`<table><tr><td>X</td></tr></table>`. -/
theorem Table.render_nested (s : String) (sched : List Nat) :
    (do
      let td ← Td [.node (Text s)]
      let tr ← Tr [.node (.tag td.1)]
      let table ← Table [.node (.tag tr.1)]
      pure (table.1.Render sched).1)
      = Except.ok ("<table><tr><td>" ++ escapeString s ++ "</td></tr></table>") ∧
    (do
      let td ← Td [.node (Text "X")]
      let tr ← Tr [.node (.tag td.1)]
      let table ← Table [.node (.tag tr.1)]
      pure (table.1.Render sched).1)
      = Except.ok "<table><tr><td>X</td></tr></table>" := by
  refine ⟨render_table_tr_td_text s sched, ?_⟩
  rw [render_table_tr_td_text "X"]
  rfl

/-- A cell with a class attribute renders the attribute once, with the value escaped. -/
theorem render_td_class (v : String) (sched : List Nat) :
    (do
      let td ← Td [.attr (Class v)]
      pure (td.1.Render sched).1)
      = Except.ok ("<td class=\"" ++ escapeString v ++ "\"></td>") := by
  simp [Td, tag, List.foldlM, tagStep, Class, Tag.AddAttribute, AttrMap.set, bind, Except.bind,
    pure, Except.pure]
  simp [Tag.Render, renderChildren, rangeOrder, pickOrder, attrSegment, AttrMap.entries,
    AList.insert, Nat.mod_one]
  apply String.ext
  simp

/-- C5: for every string `v` and every schedule, `Td(Class(v)).Render()` is
`<td class="`, the escaped `v`, `"></td>`; for `v = "foo"` it is `<td class="foo"></td>`. -/
theorem Td.render_class (v : String) (sched : List Nat) :
    (do
      let td ← Td [.attr (Class v)]
      pure (td.1.Render sched).1)
      = Except.ok ("<td class=\"" ++ escapeString v ++ "\"></td>") ∧
    (do
      let td ← Td [.attr (Class "foo")]
      pure (td.1.Render sched).1)
      = Except.ok "<td class=\"foo\"></td>" := by
  refine ⟨render_td_class v sched, ?_⟩
  rw [render_td_class "foo"]
  rfl

/-! ## Children -/

/-- One turn of the constructor's loop on a tag whose map was made never panics, keeps
the name and both allow-lists, and leaves a made map. -/
theorem tagStep_ok (acc : Tag × String) (arg : Arg) (hm : ∃ m, acc.1.Attributes = .made m) :
    ∃ r, tagStep acc arg = .ok r ∧ r.1.Name = acc.1.Name ∧
      r.1.AllowedAttrs = acc.1.AllowedAttrs ∧ r.1.AllowedChildTags = acc.1.AllowedChildTags ∧
      ∃ m, r.1.Attributes = .made m := by
  obtain ⟨m, hm⟩ := hm
  cases arg with
  | attr v => simp [tagStep, Tag.AddAttribute, AttrMap.set, hm]
  | node e =>
    cases e with
    | tag c =>
      by_cases h : c.Name ∈ acc.1.AllowedChildTags
      · simp [tagStep, Tag.AddChild, h, hm]
      · simp [tagStep, Tag.AddChild, h, hm]
    | text n => exact ⟨_, rfl, rfl, rfl, rfl, m, hm⟩
    | raw n => exact ⟨_, rfl, rfl, rfl, rfl, m, hm⟩
  | other => exact ⟨_, rfl, rfl, rfl, rfl, m, hm⟩

/-- The constructor's loop on a tag whose map was made never panics and keeps the name
and both allow-lists. -/
theorem foldlM_tagStep_ok (args : List Arg) (acc : Tag × String)
    (hm : ∃ m, acc.1.Attributes = .made m) :
    ∃ r, args.foldlM tagStep acc = .ok r ∧ r.1.Name = acc.1.Name ∧
      r.1.AllowedAttrs = acc.1.AllowedAttrs ∧ r.1.AllowedChildTags = acc.1.AllowedChildTags := by
  induction args generalizing acc with
  | nil => exact ⟨acc, rfl, rfl, rfl, rfl⟩
  | cons a rest ih =>
    obtain ⟨r, hr, h1, h2, h3, hm2⟩ := tagStep_ok acc a hm
    obtain ⟨r2, hr2, g1, g2, g3⟩ := ih r hm2
    refine ⟨r2, ?_, g1.trans h1, g2.trans h2, g3.trans h3⟩
    simp only [List.foldlM, bind, Except.bind, hr]
    exact hr2

/-- The constructor `Tr` never panics and returns a tag named `tr`. -/
theorem Tr_ok (args : List Arg) :
    ∃ r, Tr args = .ok r ∧ r.1.Name = "tr" := by
  obtain ⟨r, hr, h1, _, _⟩ := foldlM_tagStep_ok args
    (({ Name := "tr", Attributes := .made ∅, Children := [],
        AllowedAttrs := ["class", "id"].foldl (fun s a => insert a s) ∅,
        AllowedChildTags := ["td"].foldl (fun s c => insert c s) ∅ } : Tag), "") ⟨∅, rfl⟩
  exact ⟨r, hr, h1⟩

/-- C6: for every element `t` and every element `c` whose name is not in
`t.AllowedChildTags`, `t.AddChild(c)` returns normally and leaves `t` as it was (so its
children and its rendering too), printing only a warning; and for every argument list `a`,
`Td(Tr(a...))` has no child and renders as `<td></td>`. -/
theorem Tag.addChild_disallowed (t c : Tag) (h : c.Name ∉ t.AllowedChildTags) (a : List Arg)
    (sched : List Nat) :
    t.AddChild (.tag c) =
      .ok (t, "Warning: Child tag '" ++ c.Name ++ "' is not allowed for tag '" ++ t.Name
        ++ "'\nStop rendering.\n") ∧
    (do
      let tr ← Tr a
      let td ← Td [.node (.tag tr.1)]
      pure (td.1.Children, (td.1.Render sched).1))
      = Except.ok ([], "<td></td>") := by
  constructor
  · simp [Tag.AddChild, h]
  · obtain ⟨r, hr, hname⟩ := Tr_ok a
    rw [hr]
    simp [Td, tag, List.foldlM, tagStep, Tag.AddChild, bind, Except.bind, pure, Except.pure, hname]
    simp [Tag.Render, renderChildren, rangeOrder, pickOrder]

/-- Witness of C6: a row with an attribute and a text, offered to an empty cell. -/
theorem Tag.addChild_disallowed_witness :
    "tr" ∉ (∅ : Finset String) ∧
    Tag.AddChild ⟨"td", .made ∅, [], {"class", "id"}, ∅⟩ (.tag ⟨"tr", .made ∅, [Text "x"], {"class", "id"}, {"td"}⟩) =
      .ok (⟨"td", .made ∅, [], {"class", "id"}, ∅⟩, "Warning: Child tag 'tr' is not allowed for tag 'td'\nStop rendering.\n") ∧
    (do
      let tr ← Tr [.attr (Class "a"), .node (Text "x")]
      let td ← Td [.node (.tag tr.1)]
      pure (td.1.Children, (td.1.Render [1]).1))
      = Except.ok ([], "<td></td>") :=
  ⟨by decide, Tag.addChild_disallowed ⟨"td", .made ∅, [], {"class", "id"}, ∅⟩ ⟨"tr", .made ∅, [Text "x"], {"class", "id"}, {"td"}⟩ (by decide)
      [.attr (Class "a"), .node (Text "x")] [1]⟩

/-! ## Attributes -/

/-- The keys of the entries of a map are all different. -/
theorem AttrMap.entries_nodupKeys (a : AttrMap) : (a.entries.map Sigma.fst).Nodup := by
  cases a with
  | nil => exact List.nodup_nil
  | made m => exact m.nodupKeys

/-- On an element whose map was made, `AddAttribute` returns: the map has the new entry
and nothing else of the element changes. -/
theorem Tag.addAttribute_made (t : Tag) (m : AList fun _ : String => String)
    (hm : t.Attributes = .made m) (a : Attr) :
    t.AddAttribute a = .ok ({ t with Attributes := .made (m.insert a.Key a.Val) },
      if a.Key ∉ t.AllowedAttrs then
        "Warning: Attribute '" ++ a.Key ++ "' is not allowed for tag '" ++ t.Name
          ++ "'\nStop rendering.\n"
      else "") := by
  simp [Tag.AddAttribute, AttrMap.set, hm]

/-- The rendering of an element that holds an entry has the segment of the entry among
the segments of the other entries. -/
theorem Tag.render_holds_entry (t : Tag) (k v : String)
    (h : (⟨k, v⟩ : Σ _ : String, String) ∈ t.Attributes.entries) (sched : List Nat) :
    ∃ before after : List (Σ _ : String, String), ∃ outs : List String,
      (before ++ ⟨k, v⟩ :: after).Perm t.Attributes.entries ∧
      List.Forall₂ (fun child out => ∃ s, (Element.Render child s).1 = out) t.Children outs ∧
      (t.Render sched).1 =
        "<" ++ t.Name ++ String.join (before.map attrSegment)
          ++ (" " ++ k ++ "=\"" ++ escapeString v ++ "\"")
          ++ String.join (after.map attrSegment)
          ++ ">" ++ String.join outs ++ "</" ++ t.Name ++ ">" := by
  obtain ⟨outs, hall, heq⟩ := Tag.render_eq t sched
  have hperm := rangeOrder_perm t.Attributes (sched.headD 0)
  obtain ⟨before, after, hsplit⟩ := List.append_of_mem (hperm.mem_iff.mpr h)
  refine ⟨before, after, outs, hsplit ▸ hperm, hall, ?_⟩
  rw [heq, hsplit]
  apply String.ext
  simp [attrSegment]

/-- A row built with one attribute holds it and renders it, whatever the key. -/
theorem render_tr_attr (k v : String) (sched : List Nat) :
    (do
      let tr ← Tr [.attr ⟨k, v⟩]
      pure (tr.1.Attributes.lookup k, (tr.1.Render sched).1))
      = Except.ok (some v, "<tr " ++ k ++ "=\"" ++ escapeString v ++ "\"></tr>") := by
  simp [Tr, tag, List.foldlM, tagStep, Tag.AddAttribute, AttrMap.set, bind, Except.bind, pure,
    Except.pure]
  simp [Tag.Render, renderChildren, rangeOrder, pickOrder, attrSegment, AttrMap.entries,
    AttrMap.lookup, AList.insert, Nat.mod_one]
  constructor
  · simp [AList.lookup, AList.singleton]
  · apply String.ext
    simp

/-- C7 fails as stated: on the element `&Tag{Name: "div"}`, whose `Attributes` is the nil
map, `AddAttribute(Attr{"k", "v"})` panics in the write to the map, so it is not for
every element that the map holds the value after the call. -/
theorem Tag.addAttribute_nil_map_panics :
    Tag.AddAttribute ⟨"div", .nil, [], ∅, ∅⟩ ⟨"k", "v"⟩ = .error nilMapPanic ∧
    ¬ ∀ (t : Tag) (k v : String),
      ∃ r, t.AddAttribute ⟨k, v⟩ = .ok r ∧ r.1.Attributes.lookup k = some v := by
  refine ⟨rfl, fun h => ?_⟩
  obtain ⟨r, hr, _⟩ := h ⟨"div", .nil, [], ∅, ∅⟩ "k" "v"
  simp [Tag.AddAttribute, AttrMap.set] at hr

/-- C7, amended: for every element `t` whose `Attributes` map was made (as it is in every
element that `Table`, `Tr` or `Td` returns), every key `k` (in `t.AllowedAttrs` or not)
and every value `v`, `t.AddAttribute(Attr{k, v})` returns, after it the map holds `v` at
`k` and the opening tag of the rendering holds the segment ` k="E(v)"` among the segments
of the other entries; and `Tr(Attr{k, v}).Render()` is `<tr k="E(v)"></tr>` for every
key, so also for every key other than `class` and `id`. -/
theorem Tag.addAttribute_applies (t : Tag) (m : AList fun _ : String => String)
    (hm : t.Attributes = .made m) (k v : String) (sched : List Nat) :
    (∃ r, t.AddAttribute ⟨k, v⟩ = .ok r ∧
      r.1.Attributes.lookup k = some v ∧
      ∃ before after : List (Σ _ : String, String), ∃ outs : List String,
        (before ++ ⟨k, v⟩ :: after).Perm r.1.Attributes.entries ∧
        List.Forall₂ (fun child out => ∃ s, (Element.Render child s).1 = out)
          t.Children outs ∧
        (r.1.Render sched).1 =
          "<" ++ t.Name ++ String.join (before.map attrSegment)
            ++ (" " ++ k ++ "=\"" ++ escapeString v ++ "\"")
            ++ String.join (after.map attrSegment)
            ++ ">" ++ String.join outs ++ "</" ++ t.Name ++ ">") ∧
    (do
      let tr ← Tr [.attr ⟨k, v⟩]
      pure (tr.1.Attributes.lookup k, (tr.1.Render sched).1))
      = Except.ok (some v, "<tr " ++ k ++ "=\"" ++ escapeString v ++ "\"></tr>") := by
  refine ⟨⟨_, Tag.addAttribute_made t m hm ⟨k, v⟩, ?_, ?_⟩, render_tr_attr k v sched⟩
  · simp [AttrMap.lookup]
  · exact Tag.render_holds_entry { t with Attributes := .made (m.insert k v) } k v
      (by simp [AttrMap.entries]) sched

/-- Witness of C7, amended: a row with an id, given an attribute outside its allow-list. -/
theorem Tag.addAttribute_applies_witness :
    (⟨"tr", .made ((∅ : AList fun _ : String => String).insert "id" "r"), [Text "x"],
        {"class", "id"}, {"td"}⟩ : Tag).Attributes =
      .made ((∅ : AList fun _ : String => String).insert "id" "r") ∧
    ((∃ r, Tag.AddAttribute
        ⟨"tr", .made ((∅ : AList fun _ : String => String).insert "id" "r"), [Text "x"],
          {"class", "id"}, {"td"}⟩ ⟨"style", "a<b"⟩ = .ok r ∧
      r.1.Attributes.lookup "style" = some "a<b" ∧
      ∃ before after : List (Σ _ : String, String), ∃ outs : List String,
        (before ++ ⟨"style", "a<b"⟩ :: after).Perm r.1.Attributes.entries ∧
        List.Forall₂ (fun child out => ∃ s, (Element.Render child s).1 = out)
          [Text "x"] outs ∧
        (r.1.Render [1]).1 =
          "<" ++ "tr" ++ String.join (before.map attrSegment)
            ++ (" " ++ "style" ++ "=\"" ++ escapeString "a<b" ++ "\"")
            ++ String.join (after.map attrSegment)
            ++ ">" ++ String.join outs ++ "</" ++ "tr" ++ ">") ∧
    (do
      let tr ← Tr [.attr ⟨"style", "a<b"⟩]
      pure (tr.1.Attributes.lookup "style", (tr.1.Render [1]).1))
      = Except.ok (some "a<b", "<tr " ++ "style" ++ "=\"" ++ escapeString "a<b" ++ "\"></tr>")) :=
  ⟨rfl,
    Tag.addAttribute_applies
      ⟨"tr", .made ((∅ : AList fun _ : String => String).insert "id" "r"), [Text "x"],
        {"class", "id"}, {"td"}⟩
      ((∅ : AList fun _ : String => String).insert "id" "r") rfl "style" "a<b" [1]⟩

/-! ## Determinism of rendering -/

/-- A map with at most one entry is visited in one order only. -/
theorem rangeOrder_eq_of_length_le_one (m : AttrMap) (seed : Nat) (h : m.entries.length ≤ 1) :
    rangeOrder m seed = m.entries := by
  have hperm := rangeOrder_perm m seed
  match hm : m.entries, h with
  | [], _ => rw [hm] at hperm; exact List.perm_nil.mp hperm
  | [x], _ => rw [hm] at hperm; exact List.perm_singleton.mp hperm

mutual
/-- Two renderings of a node are equal when no element under it holds two attributes. -/
theorem node_render_det : ∀ (e : Element), e.atMostOneAttr = true →
    ∀ s1 s2 : List Nat, (e.Render s1).1 = (e.Render s2).1
  | .tag t, h, s1, s2 => by
    rw [Element.atMostOneAttr] at h
    rw [Element.Render, Element.Render]
    exact tag_render_det t h s1 s2
  | .text _, _, _, _ => by simp [Element.Render]
  | .raw _, _, _, _ => by simp [Element.Render]
/-- Two renderings of an element are equal when no element of its tree holds two
attributes. -/
theorem tag_render_det : ∀ (t : Tag), Tag.atMostOneAttr t = true →
    ∀ s1 s2 : List Nat, (Tag.Render t s1).1 = (Tag.Render t s2).1
  | ⟨name, attrs, children, _, _⟩, h, s1, s2 => by
    rw [Tag.atMostOneAttr] at h
    simp only [Bool.and_eq_true, decide_eq_true_eq] at h
    rw [Tag.Render, Tag.Render]
    simp only [rangeOrder_eq_of_length_le_one attrs _ h.1]
    rw [renderChildren_det children h.2 s1.tail s2.tail]
/-- The children loop writes the same bytes under any two schedules when no element
under the children holds two attributes. -/
theorem renderChildren_det : ∀ (cs : List Element), allAtMostOneAttr cs = true →
    ∀ (s1 s2 : List Nat) (b : String), (renderChildren cs s1 b).1 = (renderChildren cs s2 b).1
  | [], _, _, _, _ => by simp [renderChildren]
  | c :: cs, h, s1, s2, b => by
    rw [allAtMostOneAttr] at h
    simp only [Bool.and_eq_true] at h
    rw [renderChildren, renderChildren]
    rw [node_render_det c h.1 s1 s2]
    exact renderChildren_det cs h.2 _ _ _
end

/-- C8 fails as stated: the cell `Td(Class("a"), Id("b"))` renders as
`<td id="b" class="a"></td>` when its map is visited in one order and as
`<td class="a" id="b"></td>` in the other, so two calls of `Render` on the same
unmodified tree need not return the same bytes. -/
theorem Tag.render_order_varies :
    (do
      let td ← Td [.attr (Class "a"), .attr (Id "b")]
      pure ((td.1.Render [0]).1, (td.1.Render [1]).1))
      = Except.ok ("<td id=\"b\" class=\"a\"></td>", "<td class=\"a\" id=\"b\"></td>") ∧
    ¬ ∀ (t : Tag) (s1 s2 : List Nat), (t.Render s1).1 = (t.Render s2).1 := by
  refine ⟨by decide, fun h => ?_⟩
  have := h ⟨"td", .made (((∅ : AList fun _ : String => String).insert "class" "a").insert
    "id" "b"), [], {"class", "id"}, ∅⟩ [0] [1]
  revert this
  decide

/-- C8, amended: on a tree in which every element holds at most one attribute, calling
`Render` twice returns the same bytes, whatever the map iterations do. -/
theorem Element.render_deterministic (e : Element) (h : e.atMostOneAttr = true)
    (s1 s2 : List Nat) : (e.Render s1).1 = (e.Render s2).1 :=
  node_render_det e h s1 s2

/-- Witness of C8, amended: a row with an id around a cell with a class and a raw node. -/
theorem Element.render_deterministic_witness :
    Element.atMostOneAttr
        (.tag ⟨"tr", .made ((∅ : AList fun _ : String => String).insert "id" "r"), [.tag ⟨"td", .made ((∅ : AList fun _ : String => String).insert "class" "a"), [Text "x"], {"class", "id"}, ∅⟩, Raw "<br>"], {"class", "id"}, {"td"}⟩) = true ∧
    (Element.Render
        (.tag ⟨"tr", .made ((∅ : AList fun _ : String => String).insert "id" "r"), [.tag ⟨"td", .made ((∅ : AList fun _ : String => String).insert "class" "a"), [Text "x"], {"class", "id"}, ∅⟩, Raw "<br>"], {"class", "id"}, {"td"}⟩) [0, 0]).1 =
    (Element.Render
        (.tag ⟨"tr", .made ((∅ : AList fun _ : String => String).insert "id" "r"), [.tag ⟨"td", .made ((∅ : AList fun _ : String => String).insert "class" "a"), [Text "x"], {"class", "id"}, ∅⟩, Raw "<br>"], {"class", "id"}, {"td"}⟩) [1, 1]).1 :=
  ⟨by decide, Element.render_deterministic _ (by decide) [0, 0] [1, 1]⟩

/-! ## Leaf nodes handed to `AddChild` -/

/-- C9, evaluated on the code: `AddChild` panics on every `Raw` child, for instance
`Table().AddChild(Raw("x"))`, in the type assertion `child.(*Tag)`; it returns normally on
every element child, and the constructor `tag` returns normally on every list of
arguments that are attributes, nodes (pointers being non-nil) or values of another type. -/
theorem Tag.addChild_raw_panics (t : Tag) (s : String) :
    t.AddChild (Raw s) = .error assertionPanic ∧
    (do
      let table ← Table []
      table.1.AddChild (Raw "x")) = .error assertionPanic ∧
    (∀ c : Tag, ∃ r, t.AddChild (.tag c) = .ok r) ∧
    (∀ (name : String) (allowedAttrs allowedChildTags : List String) (args : List Arg),
      ∃ r, tag name allowedAttrs allowedChildTags args = .ok r) := by
  refine ⟨?_, ?_, ?_, ?_⟩
  · simp [Raw, Tag.AddChild]
  · simp [Table, tag, List.foldlM, Raw, Tag.AddChild, bind, Except.bind, pure, Except.pure]
  · intro c
    by_cases h : c.Name ∈ t.AllowedChildTags <;> simp [Tag.AddChild, h]
  · intro name allowedAttrs allowedChildTags args
    obtain ⟨r, hr, _⟩ := foldlM_tagStep_ok args
      (({ Name := name, Attributes := .made ∅, Children := [],
          AllowedAttrs := allowedAttrs.foldl (fun s a => insert a s) ∅,
          AllowedChildTags := allowedChildTags.foldl (fun s c => insert c s) ∅ } : Tag), "")
      ⟨∅, rfl⟩
    exact ⟨r, hr⟩

/-- C10, evaluated on the code: `AddChild` panics on every `Text` child, for instance
`Td().AddChild(Text("x"))`, and appends nothing; the same node given to the constructor,
`Td(Text("x"))`, is appended without a check, the cell holding one child and rendering
as `<td>x</td>`. -/
theorem Tag.addChild_text_panics (t : Tag) (s : String) (sched : List Nat) :
    t.AddChild (Text s) = .error assertionPanic ∧
    (do
      let td ← Td []
      td.1.AddChild (Text "x")) = .error assertionPanic ∧
    (do
      let td ← Td [.node (Text "x")]
      pure (td.1.Children.length, (td.1.Render sched).1)) = Except.ok (1, "<td>x</td>") := by
  refine ⟨?_, ?_, ?_⟩
  · simp [Text, Tag.AddChild]
  · simp [Td, tag, List.foldlM, Text, Tag.AddChild, bind, Except.bind, pure, Except.pure]
  · simp [Td, tag, List.foldlM, tagStep, Text, bind, Except.bind, pure, Except.pure]
    simp [Tag.Render, renderChildren, Element.Render, rangeOrder, pickOrder, TextNode.Render]
    decide

/-! ## Dispatch of the constructor arguments -/

/-- The set built by the loop `for _, x := range xs { m[x] = struct{}{} }` holds exactly
the members of `xs`. -/
theorem mem_foldl_insert (xs : List String) (init : Finset String) (x : String) :
    x ∈ xs.foldl (fun s a => insert a s) init ↔ x ∈ init ∨ x ∈ xs := by
  induction xs generalizing init with
  | nil => simp
  | cons y ys ih =>
    simp only [List.foldl_cons, ih, Finset.mem_insert, List.mem_cons]
    tauto

/-- One turn of the constructor's loop, when the allowed child names are those of `ac`:
the children grow by the child the argument contributes, the map by its attribute. -/
theorem tagStep_dispatch (acc : Tag × String) (ac : List String) (arg : Arg)
    (hac : ∀ x, x ∈ acc.1.AllowedChildTags ↔ x ∈ ac)
    (m0 : AList fun _ : String => String) (hm : acc.1.Attributes = .made m0) :
    ∃ r, tagStep acc arg = .ok r ∧
      r.1.Children = acc.1.Children ++ (Arg.keptChild ac arg).toList ∧
      r.1.Attributes = .made ((Arg.attrOf arg).toList.foldl
        (fun m a => m.insert a.Key a.Val) m0) ∧
      r.1.Name = acc.1.Name ∧ r.1.AllowedAttrs = acc.1.AllowedAttrs ∧
      r.1.AllowedChildTags = acc.1.AllowedChildTags := by
  cases arg with
  | attr v => simp [tagStep, Tag.AddAttribute, AttrMap.set, hm, Arg.keptChild, Arg.attrOf]
  | node e =>
    cases e with
    | tag c =>
      by_cases h : c.Name ∈ acc.1.AllowedChildTags
      · have h2 : c.Name ∈ ac := (hac _).mp h
        simp [tagStep, Tag.AddChild, h, Arg.keptChild, Arg.attrOf, h2, hm]
      · have h2 : c.Name ∉ ac := fun hc => h ((hac _).mpr hc)
        simp [tagStep, Tag.AddChild, h, Arg.keptChild, Arg.attrOf, h2, hm]
    | text n => exact ⟨_, rfl, rfl, hm, rfl, rfl, rfl⟩
    | raw n => exact ⟨_, rfl, rfl, hm, rfl, rfl, rfl⟩
  | other => exact ⟨_, rfl, by simp [Arg.keptChild], hm, rfl, rfl, rfl⟩

/-- The constructor's loop from any tag: the children grow by the children the arguments
contribute, in order, and the map by their attributes, in order. -/
theorem foldlM_tagStep_dispatch (args : List Arg) (acc : Tag × String) (ac : List String)
    (hac : ∀ x, x ∈ acc.1.AllowedChildTags ↔ x ∈ ac)
    (m0 : AList fun _ : String => String) (hm : acc.1.Attributes = .made m0) :
    ∃ r, args.foldlM tagStep acc = .ok r ∧
      r.1.Children = acc.1.Children ++ args.filterMap (Arg.keptChild ac) ∧
      r.1.Attributes = .made ((args.filterMap Arg.attrOf).foldl
        (fun m a => m.insert a.Key a.Val) m0) := by
  induction args generalizing acc m0 with
  | nil => exact ⟨acc, rfl, by simp, hm⟩
  | cons a rest ih =>
    obtain ⟨r, hr, hc, ha, _, _, hallow⟩ := tagStep_dispatch acc ac a hac m0 hm
    obtain ⟨r2, hr2, hc2, ha2⟩ := ih r (by rw [hallow]; exact hac) _ ha
    refine ⟨r2, ?_, ?_, ?_⟩
    · simp only [List.foldlM, bind, Except.bind, hr]
      exact hr2
    · rw [hc2, hc]
      cases hk : Arg.keptChild ac a <;> simp [List.filterMap_cons, hk]
    · rw [ha2]
      cases hk : Arg.attrOf a <;> simp [List.filterMap_cons, hk]

/-- The function `tag` on any argument list: it returns, the children are the children the
arguments contribute, in order, and the map holds their attributes, written in order. -/
theorem tag_dispatch (name : String) (aa ac : List String) (args : List Arg) :
    ∃ r, tag name aa ac args = .ok r ∧
      r.1.Children = args.filterMap (Arg.keptChild ac) ∧
      r.1.Attributes = .made ((args.filterMap Arg.attrOf).foldl
        (fun m a => m.insert a.Key a.Val) ∅) := by
  obtain ⟨r, hr, hc, ha⟩ := foldlM_tagStep_dispatch args
    (({ Name := name, Attributes := .made ∅, Children := [],
        AllowedAttrs := aa.foldl (fun s a => insert a s) ∅,
        AllowedChildTags := ac.foldl (fun s c => insert c s) ∅ } : Tag), "") ac
    (fun x => by simp [mem_foldl_insert]) ∅ rfl
  exact ⟨r, hr, by simpa using hc, ha⟩

/-- C11: for each of `Table`, `Tr` and `Td` and every argument list, the constructor
returns an element whose children are exactly the arguments that are text or raw nodes or
elements named in the constructor's allowed child names (`tr`, `td`, none), in the order
of the arguments, and whose map is the made empty map after the write `m[Key] = Val` of
`AddAttribute` for every `Attr` argument in order; an `Attr` adds no child. -/
theorem constructor_dispatch (args : List Arg) :
    (∃ r, Table args = .ok r ∧
      r.1.Children = args.filterMap (Arg.keptChild ["tr"]) ∧
      r.1.Attributes = .made ((args.filterMap Arg.attrOf).foldl
        (fun m a => m.insert a.Key a.Val) ∅)) ∧
    (∃ r, Tr args = .ok r ∧
      r.1.Children = args.filterMap (Arg.keptChild ["td"]) ∧
      r.1.Attributes = .made ((args.filterMap Arg.attrOf).foldl
        (fun m a => m.insert a.Key a.Val) ∅)) ∧
    (∃ r, Td args = .ok r ∧
      r.1.Children = args.filterMap (Arg.keptChild []) ∧
      r.1.Attributes = .made ((args.filterMap Arg.attrOf).foldl
        (fun m a => m.insert a.Key a.Val) ∅)) :=
  ⟨tag_dispatch "table" ["class", "id"] ["tr"] args,
   tag_dispatch "tr" ["class", "id"] ["td"] args,
   tag_dispatch "td" ["class", "id"] [] args⟩

/-! ## Last write wins -/

/-- A cell built with two class attributes keeps the second. -/
theorem render_td_class_twice (sched : List Nat) :
    (do
      let td ← Td [.attr (Class "a"), .attr (Class "b")]
      pure (td.1.Render sched).1)
      = Except.ok "<td class=\"b\"></td>" := by
  simp [Td, tag, List.foldlM, tagStep, Class, Tag.AddAttribute, AttrMap.set, bind, Except.bind,
    pure, Except.pure]
  simp [Tag.Render, renderChildren, rangeOrder, pickOrder, attrSegment, AttrMap.entries,
    AList.insert, Nat.mod_one, List.kerase, List.kinsert]
  decide

/-- C12 fails as stated: on the element `&Tag{Name: "td"}`, whose `Attributes` is the nil
map, the first of the two calls `AddAttribute(Class("a"))`, `AddAttribute(Class("b"))`
panics in the write to the map, so it is not for every element that the map holds the
second value after the two calls. -/
theorem Tag.addAttribute_twice_nil_map_panics :
    (do
      let r1 ← Tag.AddAttribute ⟨"td", .nil, [], {"class", "id"}, ∅⟩ (Class "a")
      let r2 ← r1.1.AddAttribute (Class "b")
      pure (r2.1.Attributes.lookup "class")) = Except.error nilMapPanic ∧
    ¬ ∀ (t : Tag) (k v1 v2 : String),
      ∃ r1 r2, t.AddAttribute ⟨k, v1⟩ = .ok r1 ∧ r1.1.AddAttribute ⟨k, v2⟩ = .ok r2 ∧
        r2.1.Attributes.lookup k = some v2 := by
  refine ⟨rfl, fun h => ?_⟩
  obtain ⟨r1, r2, hr1, _⟩ := h ⟨"td", .nil, [], {"class", "id"}, ∅⟩ "class" "a" "b"
  simp [Tag.AddAttribute, AttrMap.set] at hr1

/-- C12, amended: for every element `t` whose `Attributes` map was made (as it is in
every element that `Table`, `Tr` or `Td` returns), key `k` and values `v1`, `v2`, the
calls `AddAttribute(Attr{k, v1})` and then `AddAttribute(Attr{k, v2})` return, after them
the map holds `v2` at `k` and what `t` held at every other key, and the opening tag of
the rendering holds the segment ` k="E(v2)"` and no other segment with the key `k`; and
`Td(Class("a"), Class("b"))` renders as `<td class="b"></td>`. -/
theorem Tag.addAttribute_last_wins (t : Tag) (m : AList fun _ : String => String)
    (hm : t.Attributes = .made m) (k v1 v2 : String) (sched : List Nat) :
    (∃ r1 r2, t.AddAttribute ⟨k, v1⟩ = .ok r1 ∧ r1.1.AddAttribute ⟨k, v2⟩ = .ok r2 ∧
      (∀ k2, r2.1.Attributes.lookup k2 =
        if k2 = k then some v2 else t.Attributes.lookup k2) ∧
      ∃ before after : List (Σ _ : String, String), ∃ outs : List String,
        k ∉ (before ++ after).map Sigma.fst ∧
        List.Forall₂ (fun child out => ∃ s, (Element.Render child s).1 = out)
          t.Children outs ∧
        (r2.1.Render sched).1 =
          "<" ++ t.Name ++ String.join (before.map attrSegment)
            ++ (" " ++ k ++ "=\"" ++ escapeString v2 ++ "\"")
            ++ String.join (after.map attrSegment)
            ++ ">" ++ String.join outs ++ "</" ++ t.Name ++ ">") ∧
    (do
      let td ← Td [.attr (Class "a"), .attr (Class "b")]
      pure (td.1.Render sched).1)
      = Except.ok "<td class=\"b\"></td>" := by
  refine ⟨⟨_, _, Tag.addAttribute_made t m hm ⟨k, v1⟩,
    Tag.addAttribute_made { t with Attributes := .made (m.insert k v1) } (m.insert k v1) rfl
      ⟨k, v2⟩, ?_, ?_⟩, render_td_class_twice sched⟩
  · intro k2
    by_cases hk : k2 = k
    · subst hk; simp [AttrMap.lookup]
    · simp [AttrMap.lookup, hm, hk]
  · obtain ⟨before, after, outs, hperm, hall, heq⟩ := Tag.render_holds_entry
      { t with Attributes := .made ((m.insert k v1).insert k v2) } k v2
      (by simp [AttrMap.entries]) sched
    have hnodup : ((before ++ ⟨k, v2⟩ :: after).map Sigma.fst).Nodup :=
      ((hperm.map Sigma.fst).nodup_iff).mpr
        (AttrMap.entries_nodupKeys (.made ((m.insert k v1).insert k v2)))
    refine ⟨before, after, outs, ?_, hall, heq⟩
    rw [List.map_append, List.map_cons] at hnodup
    rw [List.map_append]
    exact (List.nodup_cons.mp (List.nodup_middle.mp hnodup)).1

/-- Witness of C12, amended: a cell with an id, given a class twice. -/
theorem Tag.addAttribute_last_wins_witness :
    (⟨"td", .made ((∅ : AList fun _ : String => String).insert "id" "c"), [Text "x"],
        {"class", "id"}, ∅⟩ : Tag).Attributes =
      .made ((∅ : AList fun _ : String => String).insert "id" "c") ∧
    ((∃ r1 r2,
      Tag.AddAttribute
        ⟨"td", .made ((∅ : AList fun _ : String => String).insert "id" "c"), [Text "x"],
          {"class", "id"}, ∅⟩ ⟨"class", "a"⟩ = .ok r1 ∧
      r1.1.AddAttribute ⟨"class", "b"⟩ = .ok r2 ∧
      (∀ k2, r2.1.Attributes.lookup k2 =
        if k2 = "class" then some "b" else
          (AttrMap.made ((∅ : AList fun _ : String => String).insert "id" "c")).lookup k2) ∧
      ∃ before after : List (Σ _ : String, String), ∃ outs : List String,
        "class" ∉ (before ++ after).map Sigma.fst ∧
        List.Forall₂ (fun child out => ∃ s, (Element.Render child s).1 = out)
          [Text "x"] outs ∧
        (r2.1.Render [1]).1 =
          "<" ++ "td" ++ String.join (before.map attrSegment)
            ++ (" " ++ "class" ++ "=\"" ++ escapeString "b" ++ "\"")
            ++ String.join (after.map attrSegment)
            ++ ">" ++ String.join outs ++ "</" ++ "td" ++ ">") ∧
    (do
      let td ← Td [.attr (Class "a"), .attr (Class "b")]
      pure (td.1.Render [1]).1)
      = Except.ok "<td class=\"b\"></td>") :=
  ⟨rfl,
    Tag.addAttribute_last_wins
      ⟨"td", .made ((∅ : AList fun _ : String => String).insert "id" "c"), [Text "x"],
        {"class", "id"}, ∅⟩
      ((∅ : AList fun _ : String => String).insert "id" "c") rfl "class" "a" "b" [1]⟩

/-! ## The child allow-list invariant -/

/-- The children the arguments contribute, after children that satisfy the allow-list,
satisfy it. -/
theorem all_allowed_append_kept (ac : List String) (allowed : Finset String)
    (hac : ∀ x, x ∈ allowed ↔ x ∈ ac) (cs : List Element) (args : List Arg)
    (h : (cs.all fun child =>
      match child with
      | .tag c => decide (c.Name ∈ allowed)
      | _ => true) = true) :
    ((cs ++ args.filterMap (Arg.keptChild ac)).all fun child =>
      match child with
      | .tag c => decide (c.Name ∈ allowed)
      | _ => true) = true := by
  rw [List.all_append, h, Bool.true_and, List.all_eq_true]
  intro child hchild
  obtain ⟨arg, _, harg⟩ := List.mem_filterMap.mp hchild
  cases arg with
  | attr v => simp [Arg.keptChild] at harg
  | other => simp [Arg.keptChild] at harg
  | node e =>
    cases e with
    | tag c =>
      by_cases hc : c.Name ∈ ac
      · simp only [Arg.keptChild, hc, if_true, Option.some.injEq] at harg
        subst harg
        simpa using (hac _).mpr hc
      · simp [Arg.keptChild, hc] at harg
    | text n => simp only [Arg.keptChild, Option.some.injEq] at harg; subst harg; rfl
    | raw n => simp only [Arg.keptChild, Option.some.injEq] at harg; subst harg; rfl

/-- The function `tag` returns an element that satisfies the child allow-list. -/
theorem tag_childrenAllowed (name : String) (aa ac : List String) (args : List Arg) :
    ∃ r, tag name aa ac args = .ok r ∧ r.1.childrenAllowed = true := by
  obtain ⟨r, hr, hc, _, hallow⟩ : ∃ r, tag name aa ac args = .ok r ∧
      r.1.Children = args.filterMap (Arg.keptChild ac) ∧ True ∧
      r.1.AllowedChildTags = ac.foldl (fun s c => insert c s) ∅ := by
    obtain ⟨r, hr, hc, _⟩ := tag_dispatch name aa ac args
    obtain ⟨r2, hr2, _, _, h3⟩ := foldlM_tagStep_ok args
      (({ Name := name, Attributes := .made ∅, Children := [],
          AllowedAttrs := aa.foldl (fun s a => insert a s) ∅,
          AllowedChildTags := ac.foldl (fun s c => insert c s) ∅ } : Tag), "") ⟨∅, rfl⟩
    have : r2 = r := by
      have h1 : tag name aa ac args = .ok r2 := hr2
      rw [hr] at h1
      exact (Except.ok.inj h1).symm
    subst this
    exact ⟨r2, hr, hc, trivial, h3⟩
  refine ⟨r, hr, ?_⟩
  have := all_allowed_append_kept ac r.1.AllowedChildTags
    (fun x => by rw [hallow]; simp [mem_foldl_insert]) [] args rfl
  rw [Tag.childrenAllowed, hc]
  simpa using this

/-- C13: every element that `Table`, `Tr` or `Td` returns satisfies the child allow-list
(every child that is an element has its name in `AllowedChildTags`), whatever the
arguments; on an element `t` that satisfies it, `AddChild` either returns an element
that satisfies it or panics before it changes anything, and `AddAttribute` either
returns an element with the same children, which satisfies it, or, when the map of `t`
is the nil map, panics before it changes anything. -/
theorem Tag.childrenAllowed_preserved (t : Tag) (h : t.childrenAllowed = true)
    (args : List Arg) (child : Element) (a : Attr) :
    (∃ r, Table args = .ok r ∧ r.1.childrenAllowed = true) ∧
    (∃ r, Tr args = .ok r ∧ r.1.childrenAllowed = true) ∧
    (∃ r, Td args = .ok r ∧ r.1.childrenAllowed = true) ∧
    ((∃ r, t.AddChild child = .ok r ∧ r.1.childrenAllowed = true) ∨
      t.AddChild child = .error assertionPanic) ∧
    ((∃ r, t.AddAttribute a = .ok r ∧ r.1.childrenAllowed = true ∧
        r.1.Children = t.Children) ∨
      (t.Attributes = .nil ∧ t.AddAttribute a = .error nilMapPanic)) := by
  refine ⟨tag_childrenAllowed _ _ _ args, tag_childrenAllowed _ _ _ args,
    tag_childrenAllowed _ _ _ args, ?_, ?_⟩
  · cases child with
    | tag c =>
      left
      by_cases hc : c.Name ∈ t.AllowedChildTags
      · refine ⟨({ t with Children := t.Children ++ [.tag c] }, ""), by simp [Tag.AddChild, hc], ?_⟩
        rw [Tag.childrenAllowed] at h ⊢
        simp only [List.all_append, h, Bool.true_and]
        simpa using hc
      · exact ⟨(t, "Warning: Child tag '" ++ c.Name ++ "' is not allowed for tag '" ++ t.Name
          ++ "'\nStop rendering.\n"), by simp [Tag.AddChild, hc], h⟩
    | text n => right; rfl
    | raw n => right; rfl
  · cases hm : t.Attributes with
    | nil => right; exact ⟨rfl, by simp [Tag.AddAttribute, AttrMap.set, hm]⟩
    | made m => left; exact ⟨_, Tag.addAttribute_made t m hm a, h, rfl⟩

/-- Witness of C13: a row that holds a cell and a text, offered another cell and an
attribute outside its allow-list. -/
theorem Tag.childrenAllowed_preserved_witness :
    Tag.childrenAllowed
      ⟨"tr", .made ∅, [.tag ⟨"td", .made ∅, [], {"class", "id"}, ∅⟩, Text "x"], {"class", "id"}, {"td"}⟩ = true ∧
    (∃ r, Table [.node (Text "y")] = .ok r ∧ r.1.childrenAllowed = true) ∧
    (∃ r, Tr [.node (Text "y")] = .ok r ∧ r.1.childrenAllowed = true) ∧
    (∃ r, Td [.node (Text "y")] = .ok r ∧ r.1.childrenAllowed = true) ∧
    ((∃ r, Tag.AddChild
        ⟨"tr", .made ∅, [.tag ⟨"td", .made ∅, [], {"class", "id"}, ∅⟩, Text "x"], {"class", "id"}, {"td"}⟩
        (.tag ⟨"td", .made ∅, [], {"class", "id"}, ∅⟩) = .ok r ∧ r.1.childrenAllowed = true) ∨
      Tag.AddChild
        ⟨"tr", .made ∅, [.tag ⟨"td", .made ∅, [], {"class", "id"}, ∅⟩, Text "x"], {"class", "id"}, {"td"}⟩
        (.tag ⟨"td", .made ∅, [], {"class", "id"}, ∅⟩) = .error assertionPanic) ∧
    ((∃ r, Tag.AddAttribute
        ⟨"tr", .made ∅, [.tag ⟨"td", .made ∅, [], {"class", "id"}, ∅⟩, Text "x"], {"class", "id"}, {"td"}⟩
        ⟨"style", "a"⟩ = .ok r ∧ r.1.childrenAllowed = true ∧
        r.1.Children = [.tag ⟨"td", .made ∅, [], {"class", "id"}, ∅⟩, Text "x"]) ∨
      ((⟨"tr", .made ∅, [.tag ⟨"td", .made ∅, [], {"class", "id"}, ∅⟩, Text "x"], {"class", "id"}, {"td"}⟩ : Tag).Attributes = .nil ∧
        Tag.AddAttribute
          ⟨"tr", .made ∅, [.tag ⟨"td", .made ∅, [], {"class", "id"}, ∅⟩, Text "x"], {"class", "id"}, {"td"}⟩
          ⟨"style", "a"⟩ = .error nilMapPanic)) :=
  ⟨by decide,
    Tag.childrenAllowed_preserved
      ⟨"tr", .made ∅, [.tag ⟨"td", .made ∅, [], {"class", "id"}, ∅⟩, Text "x"], {"class", "id"}, {"td"}⟩
      (by decide) [.node (Text "y")] (.tag ⟨"td", .made ∅, [], {"class", "id"}, ∅⟩) ⟨"style", "a"⟩⟩

/-! ## Heaps that programs build -/

/-- The cell found at an address after a write to a cell that exists. -/
theorem lookup_set (h : Heap) (p : Nat) (t t2 : Cell) (hp : h[p]? = some t) (i : Nat) :
    (h.set p t2)[i]? = if i = p then some t2 else h[i]? := by
  have hlt : p < h.length := (List.getElem?_eq_some.mp hp).1
  rw [List.getElem?_set]
  by_cases hi : i = p
  · subst hi; simp [hlt]
  · have : ¬ p = i := fun e => hi e.symm
    simp [hi, this]

/-- A write to a cell that keeps its name keeps the name found at every address. -/
theorem name_after_set (h : Heap) (p : Nat) (t t2 : Cell) (hp : h[p]? = some t)
    (hn : t2.Name = t.Name) (q : Nat) (c : Cell) (hq : h[q]? = some c) :
    ∃ c2, (h.set p t2)[q]? = some c2 ∧ c2.Name = c.Name := by
  rw [lookup_set h p t t2 hp]
  by_cases hqp : q = p
  · subst hqp
    rw [hp] at hq
    cases hq
    exact ⟨t2, by simp, hn⟩
  · exact ⟨c, by simp [hqp, hq], rfl⟩

/-- A write to a cell keeps the invariant when it keeps the name and the allowed child
names and leaves only children that point to tags with an allowed name. -/
theorem ranked_set (h : Heap) (hR : h.Ranked) (p : Nat) (t t2 : Cell) (hp : h[p]? = some t)
    (hn : t2.Name = t.Name) (ha : t2.AllowedChildTags = t.AllowedChildTags)
    (hc : ∀ q, Ref.tag q ∈ t2.Children → ∃ c, h[q]? = some c ∧ c.Name ∈ t.AllowedChildTags) :
    Heap.Ranked (h.set p t2) := by
  intro i cell hi
  rw [lookup_set h p t t2 hp] at hi
  by_cases hip : i = p
  · simp only [hip, if_true, Option.some.injEq] at hi
    subst hi
    refine ⟨by rw [ha, hn]; exact (hR p t hp).1, fun q hq => ?_⟩
    obtain ⟨c, hcq, hcn⟩ := hc q hq
    obtain ⟨c2, hc2, hn2⟩ := name_after_set h p t t2 hp hn q c hcq
    exact ⟨c2, hc2, by rw [hn2, ha]; exact hcn⟩
  · simp only [hip, if_false] at hi
    refine ⟨(hR i cell hi).1, fun q hq => ?_⟩
    obtain ⟨c, hcq, hcn⟩ := (hR i cell hi).2 q hq
    obtain ⟨c2, hc2, hn2⟩ := name_after_set h p t t2 hp hn q c hcq
    exact ⟨c2, hc2, by rw [hn2]; exact hcn⟩

/-- The allocation of a tag without children, with the allowed child names of its name,
keeps the invariant. -/
theorem ranked_append (h : Heap) (hR : h.Ranked) (t0 : Cell)
    (ha : t0.AllowedChildTags = allowedOf t0.Name) (hc : t0.Children = []) :
    Heap.Ranked (h ++ [t0]) := by
  intro i cell hi
  by_cases hlt : i < h.length
  · rw [List.getElem?_append_left hlt] at hi
    refine ⟨(hR i cell hi).1, fun q hq => ?_⟩
    obtain ⟨c, hcq, hcn⟩ := (hR i cell hi).2 q hq
    have hqlt : q < h.length := (List.getElem?_eq_some.mp hcq).1
    exact ⟨c, by rw [List.getElem?_append_left hqlt]; exact hcq, hcn⟩
  · rw [List.getElem?_append_right (Nat.le_of_not_lt hlt)] at hi
    have hmem : cell ∈ [t0] := List.getElem?_mem hi
    rw [List.mem_singleton] at hmem
    subst hmem
    exact ⟨ha, fun q hq => by rw [hc] at hq; simp at hq⟩

/-- The method `AddChild` keeps the invariant. -/
theorem Heap.AddChild_ranked (h : Heap) (hR : h.Ranked) (p : Nat) (child : Ref)
    (r : Heap × String) (hr : h.AddChild p child = .ok r) : r.1.Ranked := by
  cases child with
  | tag q =>
    simp only [Heap.AddChild] at hr
    cases hq : h[q]? with
    | none => simp [hq] at hr
    | some c =>
      cases hp : h[p]? with
      | none => simp [hq, hp] at hr
      | some t =>
        simp only [hq, hp] at hr
        by_cases hallow : c.Name ∈ t.AllowedChildTags
        · simp only [hallow, not_true_eq_false, if_false, Except.ok.injEq] at hr
          subst hr
          refine ranked_set h hR p t _ hp rfl rfl (fun q2 hq2 => ?_)
          rcases List.mem_append.mp hq2 with hold | hnew
          · exact (hR p t hp).2 q2 hold
          · simp only [List.mem_singleton, Ref.tag.injEq] at hnew
            subst hnew
            exact ⟨c, hq, hallow⟩
        · simp only [hallow, not_false_eq_true, if_true, Except.ok.injEq] at hr
          subst hr
          exact hR
  | text n => simp [Heap.AddChild] at hr
  | raw n => simp [Heap.AddChild] at hr

/-- The method `AddAttribute` keeps the invariant. -/
theorem Heap.AddAttribute_ranked (h : Heap) (hR : h.Ranked) (p : Nat) (attr : Attr)
    (r : Heap × String) (hr : h.AddAttribute p attr = .ok r) : r.1.Ranked := by
  simp only [Heap.AddAttribute] at hr
  cases hp : h[p]? with
  | none => simp [hp] at hr
  | some t =>
    simp only [hp] at hr
    cases hs : t.Attributes.set attr.Key attr.Val with
    | error e => simp [hs] at hr
    | ok m =>
      simp only [hs, Except.ok.injEq] at hr
      subst hr
      exact ranked_set h hR p t _ hp rfl rfl (fun q hq => (hR p t hp).2 q hq)

/-- One turn of the constructor's loop keeps the invariant. -/
theorem Heap.tagStep_ranked (p : Nat) (acc : Heap × String) (hR : acc.1.Ranked) (arg : PArg)
    (r : Heap × String) (hr : Heap.tagStep p acc arg = .ok r) : r.1.Ranked := by
  cases arg with
  | attr v =>
    simp only [Heap.tagStep] at hr
    cases ha : acc.1.AddAttribute p v with
    | error e => simp [ha] at hr
    | ok r2 =>
      simp only [ha, Except.ok.injEq] at hr
      subst hr
      exact Heap.AddAttribute_ranked acc.1 hR p v r2 ha
  | node v =>
    cases v with
    | tag q =>
      simp only [Heap.tagStep] at hr
      cases ha : acc.1.AddChild p (.tag q) with
      | error e => simp [ha] at hr
      | ok r2 =>
        simp only [ha, Except.ok.injEq] at hr
        subst hr
        exact Heap.AddChild_ranked acc.1 hR p _ r2 ha
    | text n =>
      simp only [Heap.tagStep] at hr
      cases hp : acc.1[p]? with
      | none => simp [hp] at hr
      | some t =>
        simp only [hp, Except.ok.injEq] at hr
        subst hr
        refine ranked_set acc.1 hR p t _ hp rfl rfl (fun q hq => ?_)
        rcases List.mem_append.mp hq with hold | hnew
        · exact (hR p t hp).2 q hold
        · simp at hnew
    | raw n =>
      simp only [Heap.tagStep] at hr
      cases hp : acc.1[p]? with
      | none => simp [hp] at hr
      | some t =>
        simp only [hp, Except.ok.injEq] at hr
        subst hr
        refine ranked_set acc.1 hR p t _ hp rfl rfl (fun q hq => ?_)
        rcases List.mem_append.mp hq with hold | hnew
        · exact (hR p t hp).2 q hold
        · simp at hnew
  | other =>
    simp only [Heap.tagStep, Except.ok.injEq] at hr
    subst hr
    exact hR

/-- The constructor's loop keeps the invariant. -/
theorem Heap.foldlM_tagStep_ranked (p : Nat) (args : List PArg) (acc : Heap × String)
    (hR : acc.1.Ranked) (r : Heap × String)
    (hr : args.foldlM (Heap.tagStep p) acc = .ok r) : r.1.Ranked := by
  induction args generalizing acc with
  | nil =>
    simp only [List.foldlM, pure, Except.pure, Except.ok.injEq] at hr
    subst hr
    exact hR
  | cons a rest ih =>
    simp only [List.foldlM, bind, Except.bind] at hr
    cases hs : Heap.tagStep p acc a with
    | error e => simp [hs] at hr
    | ok r1 =>
      simp only [hs] at hr
      exact ih r1 (Heap.tagStep_ranked p acc hR a r1 hs) hr

/-- The function `tag` keeps the invariant when its allowed child names are those that
the constructors give to its name. -/
theorem Heap.tag_ranked (h : Heap) (hR : h.Ranked) (name : String) (aa ac : List String)
    (hac : ac.foldl (fun s c => insert c s) (∅ : Finset String) = allowedOf name)
    (args : List PArg) (r : Heap × Nat × String) (hr : h.tag name aa ac args = .ok r) :
    r.1.Ranked := by
  simp only [Heap.tag] at hr
  split at hr
  · rename_i r1 hfold
    simp only [Except.ok.injEq] at hr
    subst hr
    exact Heap.foldlM_tagStep_ranked _ args _ (ranked_append h hR _ hac rfl) r1 hfold
  · simp at hr

/-- One call of the package keeps the invariant. -/
theorem Heap.step_ranked (h : Heap) (hR : h.Ranked) (op : Op) : (h.step op).Ranked := by
  cases op with
  | table args =>
    simp only [Heap.step]
    split
    · rename_i r hr
      exact Heap.tag_ranked h hR "table" _ ["tr"] (by decide) args r hr
    · exact hR
  | tr args =>
    simp only [Heap.step]
    split
    · rename_i r hr
      exact Heap.tag_ranked h hR "tr" _ ["td"] (by decide) args r hr
    · exact hR
  | td args =>
    simp only [Heap.step]
    split
    · rename_i r hr
      exact Heap.tag_ranked h hR "td" _ [] (by decide) args r hr
    · exact hR
  | addChild p child =>
    simp only [Heap.step]
    split
    · rename_i r hr
      exact Heap.AddChild_ranked h hR p child r hr
    · exact hR
  | addAttribute p attr =>
    simp only [Heap.step]
    split
    · rename_i r hr
      exact Heap.AddAttribute_ranked h hR p attr r hr
    · exact hR

/-- Every heap that a program builds satisfies the invariant. -/
theorem Heap.run_ranked (ops : List Op) : (Heap.run ops).Ranked := by
  have key : ∀ (ops : List Op) (h : Heap), h.Ranked → (ops.foldl Heap.step h).Ranked := by
    intro ops
    induction ops with
    | nil => intro h hR; exact hR
    | cons op rest ih => intro h hR; exact ih _ (Heap.step_ranked h hR op)
  exact key ops [] (fun p t hp => by simp at hp)

/-! ## No cycle, and rendering returns -/

/-- In a heap with the invariant, a child that is a pointer points to a tag of smaller
rank. -/
theorem rank_lt_of_child (h : Heap) (hR : h.Ranked) (p q : Nat) (t : Cell)
    (hp : h[p]? = some t) (hq : Ref.tag q ∈ t.Children) :
    ∃ c, h[q]? = some c ∧ rank c.Name < rank t.Name := by
  obtain ⟨hallow, hch⟩ := hR p t hp
  obtain ⟨c, hc, hcn⟩ := hch q hq
  refine ⟨c, hc, ?_⟩
  rw [hallow] at hcn
  unfold allowedOf at hcn
  unfold rank
  by_cases h1 : t.Name = "table"
  · simp only [h1, if_true, Finset.mem_singleton] at hcn
    simp [h1, hcn]
  · by_cases h2 : t.Name = "tr"
    · have hne : ¬ ("tr" = "table") := by decide
      simp only [h2, hne, if_true, if_false, Finset.mem_singleton] at hcn
      simp [h2, hcn]
    · simp [h1, h2] at hcn

/-- In a heap with the invariant, a tag below another has a smaller rank. -/
theorem descendant_rank (h : Heap) (hR : h.Ranked) (p q : Nat) (hd : h.Descendant p q) :
    ∃ t c, h[p]? = some t ∧ h[q]? = some c ∧ rank c.Name < rank t.Name := by
  induction hd with
  | child hp hq =>
    obtain ⟨c, hc, hlt⟩ := rank_lt_of_child h hR _ _ _ hp hq
    exact ⟨_, c, hp, hc, hlt⟩
  | trans _ _ ih1 ih2 =>
    obtain ⟨t1, c1, hp1, hq1, hlt1⟩ := ih1
    obtain ⟨t2, c2, hp2, hq2, hlt2⟩ := ih2
    rw [hq1] at hp2
    cases hp2
    exact ⟨t1, c2, hp1, hq2, Nat.lt_trans hlt2 hlt1⟩

/-- The children loop leaves the heap as it was when every call of `render` does. -/
theorem renderRefs_frame
    (render : Heap → Ref → List Nat → Option (String × List Nat × Heap))
    (hrender : ∀ h ref sched r, render h ref sched = some r → r.2.2 = h)
    (cs : List Ref) (h : Heap) (sched : List Nat) (b : String) (r : String × List Nat × Heap)
    (hr : renderRefs render cs h sched b = some r) : r.2.2 = h := by
  induction cs generalizing h sched b with
  | nil =>
    simp only [renderRefs, Option.some.injEq] at hr
    subst hr
    rfl
  | cons c rest ih =>
    simp only [renderRefs] at hr
    cases hc : render h c sched with
    | none => simp [hc] at hr
    | some r1 =>
      simp only [hc] at hr
      have h1 : r1.2.2 = h := hrender h c sched r1 hc
      rw [h1] at hr
      exact ih h _ _ hr

/-- The method `Render` leaves the heap as it was, to any depth. -/
theorem Heap.Render_heap_eq (fuel : Nat) (h : Heap) (ref : Ref) (sched : List Nat)
    (r : String × List Nat × Heap) (hr : Heap.Render fuel h ref sched = some r) :
    r.2.2 = h := by
  induction fuel generalizing h ref sched r with
  | zero =>
    cases ref with
    | tag p => simp [Heap.Render] at hr
    | text n => simp only [Heap.Render, Option.some.injEq] at hr; subst hr; rfl
    | raw n => simp only [Heap.Render, Option.some.injEq] at hr; subst hr; rfl
  | succ n ih =>
    cases ref with
    | text n => simp only [Heap.Render, Option.some.injEq] at hr; subst hr; rfl
    | raw n => simp only [Heap.Render, Option.some.injEq] at hr; subst hr; rfl
    | tag p =>
      simp only [Heap.Render] at hr
      cases hp : h[p]? with
      | none => simp [hp] at hr
      | some t =>
        simp only [hp] at hr
        split at hr
        · simp at hr
        · rename_i r1 hr1
          have h1 : r1.2.2 = h := renderRefs_frame _ ih _ _ _ _ _ hr1
          split at hr
          · simp at hr
          · simp only [Option.some.injEq] at hr
            subst hr
            exact h1

/-- The children loop returns, on the same heap, when `render` does on every child. -/
theorem renderRefs_some
    (render : Heap → Ref → List Nat → Option (String × List Nat × Heap))
    (cs : List Ref) (h : Heap)
    (hall : ∀ c ∈ cs, ∀ sched, ∃ out s, render h c sched = some (out, s, h))
    (sched : List Nat) (b : String) :
    ∃ out s, renderRefs render cs h sched b = some (out, s, h) := by
  induction cs generalizing sched b with
  | nil => exact ⟨b, sched, rfl⟩
  | cons c rest ih =>
    obtain ⟨out, s, hc⟩ := hall c (List.mem_cons_self _ _) sched
    obtain ⟨out2, s2, hrest⟩ := ih (fun c2 hc2 => hall c2 (List.mem_cons_of_mem _ hc2)) s
      (b ++ out)
    exact ⟨out2, s2, by simp only [renderRefs, hc]; exact hrest⟩

/-- In a heap with the invariant, `Render` returns on every tag, on the same heap, as
soon as the depth allowed exceeds the rank of the tag. -/
theorem Heap.Render_some (h : Heap) (hR : h.Ranked) (fuel : Nat) (p : Nat) (t : Cell)
    (hp : h[p]? = some t) (hfuel : rank t.Name < fuel) (sched : List Nat) :
    ∃ out s, Heap.Render fuel h (.tag p) sched = some (out, s, h) := by
  induction fuel generalizing p t sched with
  | zero => exact absurd hfuel (Nat.not_lt_zero _)
  | succ n ih =>
    have hchildren : ∀ c ∈ t.Children, ∀ sched,
        ∃ out s, Heap.Render n h c sched = some (out, s, h) := by
      intro c hc sched
      cases c with
      | tag q =>
        obtain ⟨cq, hq, hlt⟩ := rank_lt_of_child h hR p q t hp hc
        exact ih q cq hq (by omega) sched
      | text m => cases n <;> exact ⟨_, _, rfl⟩
      | raw m => cases n <;> exact ⟨_, _, rfl⟩
    obtain ⟨out, s, hrefs⟩ := renderRefs_some (Heap.Render n) t.Children h hchildren
      sched.tail
      ((rangeOrder t.Attributes (sched.headD 0)).foldl (fun b kv => b ++ attrSegment kv)
        ("<" ++ t.Name) ++ ">")
    exact ⟨out ++ ("</" ++ t.Name ++ ">"), s, by simp only [Heap.Render, hp, hrefs]⟩

/-- C14: in the heap that any program builds with `Table`, `Tr`, `Td`, `AddChild` and
`AddAttribute`, no element is below itself, and `Render` on any element returns within a
depth of three calls. -/
theorem Heap.run_acyclic (ops : List Op) :
    (∀ p, ¬ (Heap.run ops).Descendant p p) ∧
    (∀ p, p < (Heap.run ops).length → ∀ sched,
      ∃ out rest, Heap.Render 3 (Heap.run ops) (.tag p) sched =
        some (out, rest, Heap.run ops)) := by
  have hR := Heap.run_ranked ops
  constructor
  · intro p hd
    obtain ⟨t, c, hp, hq, hlt⟩ := descendant_rank _ hR p p hd
    rw [hp] at hq
    cases hq
    exact Nat.lt_irrefl _ hlt
  · intro p hp sched
    have hget : (Heap.run ops)[p]? = some ((Heap.run ops)[p]) := List.getElem?_eq_getElem hp
    refine Heap.Render_some _ hR 3 p _ hget ?_ sched
    unfold rank
    split_ifs <;> omega

/-- Witness of C14: a program that builds a cell, a row and a table, adds the cell to the
row a second time and then offers the table to the cell and to itself, which `AddChild`
refuses; the table renders with the cell twice in the row. -/
theorem Heap.run_acyclic_witness :
    (Heap.run
      [.td [.node (.text ⟨"x"⟩)], .tr [.node (.tag 0)], .table [.node (.tag 1)],
        .addChild 1 (.tag 0), .addChild 0 (.tag 2), .addChild 2 (.tag 2)]).length = 3 ∧
    (Heap.Render 3 (Heap.run
      [.td [.node (.text ⟨"x"⟩)], .tr [.node (.tag 0)], .table [.node (.tag 1)],
        .addChild 1 (.tag 0), .addChild 0 (.tag 2), .addChild 2 (.tag 2)]) (.tag 2) []).map (fun r => r.1)
      = some "<table><tr><td>x</td><td>x</td></tr></table>" ∧
    ∃ out rest, Heap.Render 3 (Heap.run
      [.td [.node (.text ⟨"x"⟩)], .tr [.node (.tag 0)], .table [.node (.tag 1)],
        .addChild 1 (.tag 0), .addChild 0 (.tag 2), .addChild 2 (.tag 2)]) (.tag 2) [] =
        some (out, rest, Heap.run
      [.td [.node (.text ⟨"x"⟩)], .tr [.node (.tag 0)], .table [.node (.tag 1)],
        .addChild 1 (.tag 0), .addChild 0 (.tag 2), .addChild 2 (.tag 2)]) :=
  ⟨by decide, by decide,
    (Heap.run_acyclic
      [.td [.node (.text ⟨"x"⟩)], .tr [.node (.tag 0)], .table [.node (.tag 1)],
        .addChild 1 (.tag 0), .addChild 0 (.tag 2), .addChild 2 (.tag 2)]).2 2 (by decide) []⟩

/-- C15: `Render` writes to no element: at any depth and on any heap, a call that returns
leaves every cell (name, attributes, children and both allow-lists) as it was; and on
the heap that a program builds, the call on any element returns. -/
theorem Heap.Render_frame (fuel : Nat) (h : Heap) (ref : Ref) (sched : List Nat)
    (ops : List Op) :
    (Heap.Render fuel h ref sched = none ∨
      ∃ out rest, Heap.Render fuel h ref sched = some (out, rest, h)) ∧
    (∀ p, p < (Heap.run ops).length →
      ∃ out rest, Heap.Render 3 (Heap.run ops) (.tag p) sched =
        some (out, rest, Heap.run ops)) := by
  constructor
  · cases hr : Heap.Render fuel h ref sched with
    | none => left; rfl
    | some r =>
      right
      have := Heap.Render_heap_eq fuel h ref sched r hr
      exact ⟨r.1, r.2.1, by rw [← this]⟩
  · intro p hp
    have hget : (Heap.run ops)[p]? = some ((Heap.run ops)[p]) := List.getElem?_eq_getElem hp
    refine Heap.Render_some _ (Heap.run_ranked ops) 3 p _ hget ?_ sched
    unfold rank
    split_ifs <;> omega

/-- Witness of C15: the table of a program that builds a cell, a row and a table is
rendered and the heap returned is the heap given. -/
theorem Heap.Render_frame_witness :
    ∃ out rest, Heap.Render 3
      (Heap.run [.td [.node (.text ⟨"x"⟩)], .tr [.node (.tag 0)], .table [.node (.tag 1)]])
      (.tag 2) [0] =
        some (out, rest,
          Heap.run [.td [.node (.text ⟨"x"⟩)], .tr [.node (.tag 0)], .table [.node (.tag 1)]]) :=
  (Heap.Render_frame 0 [] (.tag 0) [0]
    [.td [.node (.text ⟨"x"⟩)], .tr [.node (.tag 0)], .table [.node (.tag 1)]]).2 2 (by decide)

/-! ## Rendering in memory and rendering of the value -/

/-- The children loop in memory writes what the children loop writes on the values of
the children, when `render` does so on every child. -/
theorem renderRefs_eq_renderChildren
    (render : Heap → Ref → List Nat → Option (String × List Nat × Heap))
    (unfold : Ref → Option Element) (h : Heap)
    (hrender : ∀ c e sched, unfold c = some e →
      render h c sched = some ((e.Render sched).1, (e.Render sched).2, h))
    (cs : List Ref) (es : List Element) (hes : unfoldRefs unfold cs = some es)
    (sched : List Nat) (b : String) :
    renderRefs render cs h sched b =
      some ((renderChildren es sched b).1, (renderChildren es sched b).2, h) := by
  induction cs generalizing es sched b with
  | nil =>
    simp only [unfoldRefs, Option.some.injEq] at hes
    subst hes
    simp [renderRefs, renderChildren]
  | cons c rest ih =>
    simp only [unfoldRefs] at hes
    cases hc : unfold c with
    | none => simp [hc] at hes
    | some e =>
      cases hrest : unfoldRefs unfold rest with
      | none => simp [hc, hrest] at hes
      | some es2 =>
        simp only [hc, hrest, Option.some.injEq] at hes
        subst hes
        simp only [renderRefs, hrender c e sched hc]
        rw [ih es2 hrest, renderChildren]

/-- The method `Render` in memory returns the bytes that `Render` returns on the value of
the node, and the heap as it was. -/
theorem Heap.Render_eq_value (fuel : Nat) (h : Heap) (ref : Ref) (e : Element)
    (he : h.toElement fuel ref = some e) (sched : List Nat) :
    Heap.Render fuel h ref sched = some ((e.Render sched).1, (e.Render sched).2, h) := by
  induction fuel generalizing ref e sched with
  | zero =>
    cases ref with
    | tag p => simp [Heap.toElement] at he
    | text n =>
      simp only [Heap.toElement, Option.some.injEq] at he
      subst he
      simp [Heap.Render, Element.Render]
    | raw n =>
      simp only [Heap.toElement, Option.some.injEq] at he
      subst he
      simp [Heap.Render, Element.Render]
  | succ n ih =>
    cases ref with
    | text m =>
      simp only [Heap.toElement, Option.some.injEq] at he
      subst he
      simp [Heap.Render, Element.Render]
    | raw m =>
      simp only [Heap.toElement, Option.some.injEq] at he
      subst he
      simp [Heap.Render, Element.Render]
    | tag p =>
      simp only [Heap.toElement] at he
      cases hp : h[p]? with
      | none => simp [hp] at he
      | some t =>
        simp only [hp] at he
        cases hes : unfoldRefs (Heap.toElement n h) t.Children with
        | none => simp [hes] at he
        | some es =>
          simp only [hes, Option.some.injEq] at he
          subst he
          have hrefs := renderRefs_eq_renderChildren (Heap.Render n) (Heap.toElement n h) h
            (fun c e sched hc => ih c e hc sched) t.Children es hes
          simp only [Heap.Render, hp, hrefs, Element.Render, Tag.Render]


/-- The values of the children exist when the value of every child does. -/
theorem unfoldRefs_some (unfold : Ref → Option Element) (cs : List Ref)
    (hall : ∀ c ∈ cs, ∃ e, unfold c = some e) : ∃ es, unfoldRefs unfold cs = some es := by
  induction cs with
  | nil => exact ⟨[], rfl⟩
  | cons c rest ih =>
    obtain ⟨e, he⟩ := hall c (List.mem_cons_self _ _)
    obtain ⟨es, hes⟩ := ih (fun c2 hc2 => hall c2 (List.mem_cons_of_mem _ hc2))
    exact ⟨e :: es, by simp only [unfoldRefs, he, hes]⟩

/-- In a heap with the invariant, every tag has a value as soon as the depth allowed
exceeds its rank. -/
theorem Heap.toElement_some (h : Heap) (hR : h.Ranked) (fuel : Nat) (p : Nat) (t : Cell)
    (hp : h[p]? = some t) (hfuel : rank t.Name < fuel) :
    ∃ e, h.toElement fuel (.tag p) = some e := by
  induction fuel generalizing p t with
  | zero => exact absurd hfuel (Nat.not_lt_zero _)
  | succ n ih =>
    have hchildren : ∀ c ∈ t.Children, ∃ e, h.toElement n c = some e := by
      intro c hc
      cases c with
      | tag q =>
        obtain ⟨cq, hq, hlt⟩ := rank_lt_of_child h hR p q t hp hc
        exact ih q cq hq (by omega)
      | text m => cases n <;> exact ⟨_, rfl⟩
      | raw m => cases n <;> exact ⟨_, rfl⟩
    obtain ⟨es, hes⟩ := unfoldRefs_some _ t.Children hchildren
    exact ⟨.tag ⟨t.Name, t.Attributes, es, t.AllowedAttrs, t.AllowedChildTags⟩,
      by simp only [Heap.toElement, hp, hes]⟩

/-- Every element of the heap that a program builds has a value, a tree of depth three at
most, and `Render` in memory returns the bytes of `Render` on this value. -/
theorem Heap.run_render_value (ops : List Op) (p : Nat) (hp : p < (Heap.run ops).length)
    (sched : List Nat) :
    ∃ e, (Heap.run ops).toElement 3 (.tag p) = some e ∧
      Heap.Render 3 (Heap.run ops) (.tag p) sched =
        some ((e.Render sched).1, (e.Render sched).2, Heap.run ops) := by
  have hget : (Heap.run ops)[p]? = some ((Heap.run ops)[p]) := List.getElem?_eq_getElem hp
  obtain ⟨e, he⟩ := Heap.toElement_some _ (Heap.run_ranked ops) 3 p _ hget
    (by unfold rank; split_ifs <;> omega)
  exact ⟨e, he, Heap.Render_eq_value 3 _ _ e he sched⟩

/-! ## What the escaper writes -/

/-- The bytes of the escaper: the texts written for the characters, one after the other. -/
theorem escapeString_data (s : String) :
    (escapeString s).data = (s.data.map fun c => (escapeChar c).data).flatten := by
  rw [escapeString_eq]
  simp only [String.data_join, List.map_map]
  rfl

/-- The text written for a character is an entity, which starts with `&` and holds no
other `&` and none of the four other characters, or it is the character itself, which is
then none of the five. -/
theorem escapeChar_cases (c : Char) :
    (escapeChar c ∈ ["&amp;", "&lt;", "&gt;", "&#34;", "&#39;"] ∧
      ∃ tl, (escapeChar c).data = '&' :: tl ∧
        ∀ x ∈ tl, x ≠ '&' ∧ x ≠ '<' ∧ x ≠ '>' ∧ x ≠ Char.ofNat 34 ∧ x ≠ Char.ofNat 39) ∨
    ((escapeChar c).data = [c] ∧
      c ≠ '&' ∧ c ≠ '<' ∧ c ≠ '>' ∧ c ≠ Char.ofNat 34 ∧ c ≠ Char.ofNat 39) := by
  unfold escapeChar
  split_ifs with h1 h2 h3 h4 h5
  · left; exact ⟨by simp, ['a', 'm', 'p', ';'], rfl, by decide⟩
  · left; exact ⟨by simp, ['l', 't', ';'], rfl, by decide⟩
  · left; exact ⟨by simp, ['g', 't', ';'], rfl, by decide⟩
  · left; exact ⟨by simp, ['#', '3', '4', ';'], rfl, by decide⟩
  · left; exact ⟨by simp, ['#', '3', '9', ';'], rfl, by decide⟩
  · right; exact ⟨rfl, h1, h2, h3, h4, h5⟩

/-- The escaped text holds no angle bracket and no quote. -/
theorem escaped_no_special (l : List Char) :
    ∀ c ∈ (l.map fun c => (escapeChar c).data).flatten,
      c ≠ '<' ∧ c ≠ '>' ∧ c ≠ Char.ofNat 34 ∧ c ≠ Char.ofNat 39 := by
  intro c hc
  obtain ⟨blk, hblk, hcb⟩ := List.mem_flatten.mp hc
  obtain ⟨x, _, hx⟩ := List.mem_map.mp hblk
  subst hx
  rcases escapeChar_cases x with ⟨_, tl, htl, hno⟩ | ⟨hself, _, h2, h3, h4, h5⟩
  · rw [htl] at hcb
    rcases List.mem_cons.mp hcb with rfl | hmem
    · decide
    · exact (hno c hmem).2
  · rw [hself] at hcb
    rw [List.mem_singleton.mp hcb]
    exact ⟨h2, h3, h4, h5⟩

/-- Every `&` of the escaped text starts an entity. -/
theorem escaped_amp_starts_entity (l : List Char) :
    ∀ i, ((l.map fun c => (escapeChar c).data).flatten)[i]? = some '&' →
      ∃ e ∈ ["&amp;", "&lt;", "&gt;", "&#34;", "&#39;"],
        e.data <+: ((l.map fun c => (escapeChar c).data).flatten).drop i := by
  induction l with
  | nil => intro i h; simp at h
  | cons x xs ih =>
    intro i h
    simp only [List.map_cons, List.flatten_cons] at h ⊢
    by_cases hi : i < (escapeChar x).data.length
    · rw [List.getElem?_append_left hi] at h
      rcases escapeChar_cases x with ⟨hent, tl, htl, hno⟩ | ⟨hself, hne, _⟩
      · have hi0 : i = 0 := by
          rw [htl] at h
          cases i with
          | zero => rfl
          | succ j =>
            simp only [List.getElem?_cons_succ] at h
            exact absurd rfl (hno '&' (List.getElem?_mem h)).1
        subst hi0
        exact ⟨escapeChar x, hent, by simp⟩
      · rw [hself] at h hi
        simp only [List.length_singleton, Nat.lt_one_iff] at hi
        subst hi
        simp only [List.getElem?_cons_zero, Option.some.injEq] at h
        exact absurd h hne
    · have hle : (escapeChar x).data.length ≤ i := Nat.le_of_not_lt hi
      rw [List.getElem?_append_right hle] at h
      obtain ⟨e, he, hpre⟩ := ih _ h
      refine ⟨e, he, ?_⟩
      rw [List.drop_append_eq_append_drop, List.drop_eq_nil_of_le hle, List.nil_append]
      exact hpre

/-- C16: for every string `s`, `Text(s).Render()` holds none of the characters `<`, `>`,
double quote and single quote, and every `&` in it is the first character of one of the
entities `&amp;`, `&lt;`, `&gt;`, `&#34;`, `&#39;`; so the escaped value written between
the two double quotes of an attribute holds no double quote. -/
theorem Text.render_no_markup (s : String) (sched : List Nat) :
    (∀ c ∈ ((Text s).Render sched).1.data,
      c ≠ '<' ∧ c ≠ '>' ∧ c ≠ Char.ofNat 34 ∧ c ≠ Char.ofNat 39) ∧
    (∀ i, ((Text s).Render sched).1.data[i]? = some '&' →
      ∃ e ∈ ["&amp;", "&lt;", "&gt;", "&#34;", "&#39;"],
        e.data <+: ((Text s).Render sched).1.data.drop i) ∧
    (∀ v : String, Char.ofNat 34 ∉ (escapeString v).data) := by
  have hr : ((Text s).Render sched).1 = escapeString s := by
    simp [Text, Element.Render, TextNode.Render]
  rw [hr, escapeString_data]
  refine ⟨escaped_no_special _, escaped_amp_starts_entity _, ?_⟩
  intro v hv
  rw [escapeString_data] at hv
  exact (escaped_no_special _ _ hv).2.2.1 rfl

/-! ## The escaper loses nothing -/

/-- The texts written for two characters, each followed by anything, are equal only for
the same character followed by the same thing. -/
theorem escapeChar_prefix_free (c1 c2 : Char) (r1 r2 : List Char)
    (h : (escapeChar c1).data ++ r1 = (escapeChar c2).data ++ r2) : c1 = c2 ∧ r1 = r2 := by
  unfold escapeChar at h
  split_ifs at h <;> simp_all [String.singleton] <;> (rcases h with ⟨rfl, _⟩; simp_all)

/-- Two lists of characters with the same escaped text are equal. -/
theorem escaped_injective (l1 l2 : List Char)
    (h : (l1.map fun c => (escapeChar c).data).flatten =
      (l2.map fun c => (escapeChar c).data).flatten) : l1 = l2 := by
  induction l1 generalizing l2 with
  | nil =>
    cases l2 with
    | nil => rfl
    | cons y ys =>
      simp only [List.map_nil, List.flatten_nil, List.map_cons, List.flatten_cons] at h
      rcases escapeChar_cases y with ⟨_, tl, htl, _⟩ | ⟨hself, _⟩
      · rw [htl] at h; simp at h
      · rw [hself] at h; simp at h
  | cons x xs ih =>
    cases l2 with
    | nil =>
      simp only [List.map_nil, List.flatten_nil, List.map_cons, List.flatten_cons] at h
      rcases escapeChar_cases x with ⟨_, tl, htl, _⟩ | ⟨hself, _⟩
      · rw [htl] at h; simp at h
      · rw [hself] at h; simp at h
    | cons y ys =>
      simp only [List.map_cons, List.flatten_cons] at h
      obtain ⟨hxy, hrest⟩ := escapeChar_prefix_free x y _ _ h
      rw [hxy, ih ys hrest]

/-- C17: for all strings `s1` and `s2`, if `Text(s1).Render()` and `Text(s2).Render()`
are the same bytes then `s1` and `s2` are the same string. -/
theorem Text.render_injective (s1 s2 : String) (sched1 sched2 : List Nat)
    (h : ((Text s1).Render sched1).1 = ((Text s2).Render sched2).1) : s1 = s2 := by
  have h1 : ((Text s1).Render sched1).1 = escapeString s1 := by
    simp [Text, Element.Render, TextNode.Render]
  have h2 : ((Text s2).Render sched2).1 = escapeString s2 := by
    simp [Text, Element.Render, TextNode.Render]
  rw [h1, h2] at h
  have hd := congrArg String.data h
  rw [escapeString_data, escapeString_data] at hd
  exact String.ext (escaped_injective _ _ hd)

/-- Witness of C17: the text `a<b` rendered under two schedules. -/
theorem Text.render_injective_witness :
    ((Text "a<b").Render [0]).1 = ((Text "a<b").Render [1]).1 ∧ "a<b" = "a<b" :=
  ⟨by decide, Text.render_injective "a<b" "a<b" [0] [1] (by decide)⟩

/-! ## Keys are written as they are -/

/-- C18: the key of an attribute is written without escaping: for every element `t` that
holds `v` at `k`, the opening tag of the rendering holds the segment made of a blank, `k`
itself, `="`, the escaped `v` and `"`; for every `k` and `v`, `Td(Attr{k, v})` renders as
`<td k="E(v)"></td>`; and the cell `Td(Attr{Key: "x><script", Val: ""})`, which has no
child, so no raw node, renders as `<td x><script=""></td>`. -/
theorem Tag.render_key_verbatim (t : Tag) (k v : String)
    (h : (⟨k, v⟩ : Σ _ : String, String) ∈ t.Attributes.entries) (sched : List Nat) :
    (∃ before after : List (Σ _ : String, String), ∃ outs : List String,
      (t.Render sched).1 =
        "<" ++ t.Name ++ String.join (before.map attrSegment)
          ++ (" " ++ k ++ "=\"" ++ escapeString v ++ "\"")
          ++ String.join (after.map attrSegment)
          ++ ">" ++ String.join outs ++ "</" ++ t.Name ++ ">") ∧
    (do
      let td ← Td [.attr ⟨k, v⟩]
      pure (td.1.Render sched).1)
      = Except.ok ("<td " ++ k ++ "=\"" ++ escapeString v ++ "\"></td>") ∧
    (do
      let td ← Td [.attr ⟨"x><script", ""⟩]
      pure (td.1.Children.length, (td.1.Render sched).1))
      = Except.ok (0, "<td x><script=\"\"></td>") := by
  have key : ∀ k v : String, (do
      let td ← Td [.attr ⟨k, v⟩]
      pure (td.1.Children.length, (td.1.Render sched).1))
      = Except.ok (0, "<td " ++ k ++ "=\"" ++ escapeString v ++ "\"></td>") := by
    intro k v
    simp [Td, tag, List.foldlM, tagStep, Tag.AddAttribute, AttrMap.set, bind, Except.bind,
      pure, Except.pure]
    simp [Tag.Render, renderChildren, rangeOrder, pickOrder, attrSegment, AttrMap.entries,
      AList.insert, Nat.mod_one]
    apply String.ext
    simp
  refine ⟨?_, ?_, ?_⟩
  · obtain ⟨outs, _, heq⟩ := Tag.render_eq t sched
    have hperm := rangeOrder_perm t.Attributes (sched.headD 0)
    obtain ⟨before, after, hsplit⟩ := List.append_of_mem (hperm.mem_iff.mpr h)
    refine ⟨before, after, outs, ?_⟩
    rw [heq, hsplit]
    apply String.ext
    simp [attrSegment]
  · have := key k v
    simp only [bind, Except.bind, pure, Except.pure] at this ⊢
    revert this
    cases Td [.attr ⟨k, v⟩] <;> simp
  · rw [key "x><script" ""]
    rfl

/-- Witness of C18: an element that holds an attribute whose key has an angle bracket. -/
theorem Tag.render_key_verbatim_witness :
    (⟨"a>b", "v"⟩ : Σ _ : String, String) ∈
      (⟨"td", .made ((∅ : AList fun _ : String => String).insert "a>b" "v"), [], ∅, ∅⟩ : Tag).Attributes.entries ∧
    ((∃ before after : List (Σ _ : String, String), ∃ outs : List String,
      (Tag.Render ⟨"td", .made ((∅ : AList fun _ : String => String).insert "a>b" "v"), [], ∅, ∅⟩ [0]).1 =
        "<" ++ "td" ++ String.join (before.map attrSegment)
          ++ (" " ++ "a>b" ++ "=\"" ++ escapeString "v" ++ "\"")
          ++ String.join (after.map attrSegment)
          ++ ">" ++ String.join outs ++ "</" ++ "td" ++ ">") ∧
    (do
      let td ← Td [.attr ⟨"a>b", "v"⟩]
      pure (td.1.Render [0]).1)
      = Except.ok ("<td " ++ "a>b" ++ "=\"" ++ escapeString "v" ++ "\"></td>") ∧
    (do
      let td ← Td [.attr ⟨"x><script", ""⟩]
      pure (td.1.Children.length, (td.1.Render [0]).1))
      = Except.ok (0, "<td x><script=\"\"></td>")) :=
  ⟨by decide,
    Tag.render_key_verbatim ⟨"td", .made ((∅ : AList fun _ : String => String).insert "a>b" "v"), [], ∅, ∅⟩ "a>b" "v"
      (by decide) [0]⟩

/-! ## Arguments of another type -/

/-- C19: for `tag`, and so for `Table`, `Tr` and `Td`, an argument that is neither an
`Attr` nor a node changes nothing wherever it stands among the arguments: the element
returned (its attributes and children, hence its rendering) and the text printed are
those obtained without it; and `Td("hello")` renders as `<td></td>`. -/
theorem tag_ignores_other (name : String) (aa ac : List String) (before after : List Arg)
    (sched : List Nat) :
    tag name aa ac (before ++ Arg.other :: after) = tag name aa ac (before ++ after) ∧
    Table (before ++ Arg.other :: after) = Table (before ++ after) ∧
    Tr (before ++ Arg.other :: after) = Tr (before ++ after) ∧
    Td (before ++ Arg.other :: after) = Td (before ++ after) ∧
    (do
      let td ← Td [Arg.other]
      pure (td.1.Attributes.entries, td.1.Children.length, (td.1.Render sched).1))
      = Except.ok ([], 0, "<td></td>") := by
  have key : ∀ name aa ac,
      tag name aa ac (before ++ Arg.other :: after) = tag name aa ac (before ++ after) := by
    intro name aa ac
    simp only [tag, List.foldlM_append, List.foldlM_cons, tagStep, pure_bind]
    rfl
  refine ⟨key _ _ _, key _ _ _, key _ _ _, key _ _ _, ?_⟩
  simp [Td, tag, List.foldlM, tagStep, bind, Except.bind, pure, Except.pure]
  simp [Tag.Render, renderChildren, rangeOrder, pickOrder, AttrMap.entries]

end Htmlkit
